import Mathlib

/-!
Verification of the leptos excerpt: a shallow embedding of
`leptos_reactive/src/signal_wrappers_write.rs`, `leptos_dom/src/html.rs`
and `meta/src/title.rs`, together with a model of the reactive runtime
described by the design spec (the runtime itself is not part of the
excerpt), and theorems settling the spec claims against them.
-/

set_option maxRecDepth 4096

namespace Spec2Proof

/-! ## Embedding of `leptos_reactive/src/signal_wrappers_write.rs` -/

namespace SignalWrappersWrite

/-- `WriteSignal<T>`: the write-only half of a signal.  Calling `set`
performs a reactive update; the update action is abstracted as a value of
an arbitrary effect type `Eff` (in Rust the closure mutates the runtime). -/
structure WriteSignal (T Eff : Type) where
  setFn : T → Eff

/-- `WriteSignal::set`: invokes the underlying setter with the value. -/
def WriteSignal.set (s : WriteSignal T Eff) (v : T) : Eff :=
  s.setFn v

/-- `RwSignal<T>`: a read-write signal; only its writing capability is
relevant here. -/
structure RwSignal (T Eff : Type) where
  setFn : T → Eff

/-- `RwSignal::write_only`: the write-only half of an `RwSignal`. -/
def RwSignal.write_only (s : RwSignal T Eff) : WriteSignal T Eff :=
  ⟨s.setFn⟩

/-- `SignalSetterTypes<T>`: the closed tagged variant behind
`SignalSetter` — either a direct `WriteSignal` handle or a mapped
closure (`Mapped(Scope, StoredValue<Box<dyn Fn(T)>>)`, modelled by the
stored closure itself). -/
inductive SignalSetterTypes (T Eff : Type) where
  | Write : WriteSignal T Eff → SignalSetterTypes T Eff
  | Mapped : (T → Eff) → SignalSetterTypes T Eff

/-- `SignalSetter<T>`: newtype over `SignalSetterTypes<T>`. -/
structure SignalSetter (T Eff : Type) where
  inner : SignalSetterTypes T Eff

/-- `SignalSetter::set`: dispatches by matching on the variant. -/
def SignalSetter.set (s : SignalSetter T Eff) (v : T) : Eff :=
  match s.inner with
  | .Write w => w.set v
  | .Mapped f => f v

/-- `impl From<WriteSignal<T>> for SignalSetter<T>`. -/
def signalSetterOfWrite (w : WriteSignal T Eff) : SignalSetter T Eff :=
  ⟨.Write w⟩

/-- `impl From<RwSignal<T>> for SignalSetter<T>`: wraps the write-only
half in the `Write` variant. -/
def signalSetterOfRw (s : RwSignal T Eff) : SignalSetter T Eff :=
  ⟨.Write s.write_only⟩

/-- `SignalSetter::map`: wraps a signal-setting closure in the `Mapped`
variant. -/
def SignalSetter.map (f : T → Eff) : SignalSetter T Eff :=
  ⟨.Mapped f⟩

end SignalWrappersWrite

/-! ## Embedding of `leptos_dom/src/html.rs` -/

namespace LeptosDom

/-- Ground (non-closure) values of the `Attribute` enum:
`Attribute::String`, `Attribute::Bool`, `Attribute::Option`. -/
inductive AttributeLit where
  | Str (s : String)
  | Bl (b : Bool)
  | Opt (o : Option String)
deriving DecidableEq

/-- The `Attribute` enum of `leptos_dom`.  The `Fn` variant holds a
closure `Box<dyn Fn() -> Attribute>`; the closure is modelled by the
sequence of (ground) values it returns on its successive invocations. -/
inductive Attribute where
  | Lit (v : AttributeLit)
  | Fn (f : Nat → AttributeLit)

/-- The `Class` enum of `leptos_dom` (`Class::Value(bool)` /
`Class::Fn(Box<dyn Fn() -> bool>)`); the closure is modelled by the
sequence of values it returns on its successive invocations (the server
branch calls it exactly once, i.e. uses `f 0`). -/
inductive Class where
  | Value (b : Bool)
  | Fn (f : Nat → Bool)

/-- Imperative DOM updates performed on browser elements:
`attribute_expression(el, name, value)` and
`class_expression(el.class_list(), name, on)`. Elements are identified
by a number. -/
inductive DomOp where
  | SetAttr (el : Nat) (name : String) (v : AttributeLit)
  | SetClass (el : Nat) (name : String) (b : Bool)
deriving DecidableEq

/-- One run of the render effect created by `HtmlElement::attr` (browser
build) for a function-valued attribute: `old` is the value returned by
the previous run (`None` on the first run), `new` the value the closure
just produced.  Returns the DOM writes performed and the value handed to
the next run.  Mirrors
`create_render_effect(cx, move |old| { let new = f(); if old.as_ref() != Some(&new) { attribute_expression(&el, &name, new.clone()); } new })`. -/
def attrEffectStep (el : Nat) (name : String) (new : AttributeLit)
    (old : Option AttributeLit) : List DomOp × AttributeLit :=
  (if old = some new then [] else [DomOp.SetAttr el name new], new)

/-- State carried into run `n` of the `attr` render effect (the `old`
argument of run `n`): `none` before the first run, afterwards whatever
the previous run returned. -/
def attrEffectCarried (el : Nat) (name : String) (f : Nat → AttributeLit) :
    Nat → Option AttributeLit
  | 0 => none
  | n + 1 => some (attrEffectStep el name (f n) (attrEffectCarried el name f n)).2

/-- DOM writes performed by run `n` of the `attr` render effect. -/
def attrEffectRunOps (el : Nat) (name : String) (f : Nat → AttributeLit)
    (n : Nat) : List DomOp :=
  (attrEffectStep el name (f n) (attrEffectCarried el name f n)).1

/-- `HtmlElement::attr`, browser build: returns the DOM writes performed
directly (outside any effect) and the number of render effects
registered.  A `Fn` attribute registers one render effect (whose runs
are `attrEffectStep`); any other attribute is written once, immediately. -/
def attrBrowser (el : Nat) (name : String) (a : Attribute) : List DomOp × Nat :=
  match a with
  | .Fn _ => ([], 1)
  | .Lit v => ([DomOp.SetAttr el name v], 0)

/-- One run of the render effect created by `HtmlElement::class` (browser
build) for a function-valued class.  Mirrors
`create_render_effect(cx, move |old| { let new = f(); if old.as_ref() != Some(&new) && (old.is_some() || new) { class_expression(&class_list, &name, new) } new })`. -/
def classEffectStep (el : Nat) (name : String) (new : Bool)
    (old : Option Bool) : List DomOp × Bool :=
  (if (old != some new) && (old.isSome || new) then [DomOp.SetClass el name new]
   else [], new)

/-- State carried into run `n` of the `class` render effect. -/
def classEffectCarried (el : Nat) (name : String) (f : Nat → Bool) :
    Nat → Option Bool
  | 0 => none
  | n + 1 => some (classEffectStep el name (f n) (classEffectCarried el name f n)).2

/-- DOM writes performed by run `n` of the `class` render effect. -/
def classEffectRunOps (el : Nat) (name : String) (f : Nat → Bool)
    (n : Nat) : List DomOp :=
  (classEffectStep el name (f n) (classEffectCarried el name f n)).1

/-- `HtmlElement::class`, browser build: a `Fn` class registers one
render effect (whose runs are `classEffectStep`); a `Value` class calls
`class_expression` once, immediately. -/
def classBrowser (el : Nat) (name : String) (c : Class) : List DomOp × Nat :=
  match c with
  | .Fn _ => ([], 1)
  | .Value b => ([DomOp.SetClass el name b], 0)

/-- The element descriptor of a server-side `HtmlElement` (`name`,
`is_void`, and the `HydrationKey` assigned at creation, modelled as a
number formatted by `toString`). -/
structure ServerElementDesc where
  name : String
  isVoid : Bool
  id : Nat

/-- Server-side `View` tree (the subset relevant here: `View::Element`
and `View::Text`).  `Element::new` copies name/void/hydration data from
the descriptor and starts with no attributes, children or prerendered
content; the fields are filled in by `into_view`. -/
inductive View where
  | Element (name : String) (isVoid : Bool)
      (attrs : List (String × String)) (children : List View)
      (prerendered : Option String)
  | Text (s : String)

/-- Server-side (non-web) `HtmlElement`: descriptor plus the recorded
attribute list, children and prerendered content. -/
structure HtmlElementS where
  element : ServerElementDesc
  attrs : List (String × String)
  children : List View
  prerendered : Option String

/-- `format!("_{}", id)`: the hydration-key attribute value. -/
def hydrationKeyStr (id : Nat) : String :=
  "_" ++ toString id

/-- `IntoView::into_view` for a server-side `HtmlElement`: appends the
hydration-key attribute (`("leptos-hk", "_{id}")` if some attribute is
already named `id`, else `("id", "_{id}")`) and moves attributes,
children and prerendered content into the resulting `View::Element`. -/
def intoView (e : HtmlElementS) : View :=
  let attrs :=
    if e.attrs.any (fun p => p.1 == "id") then
      e.attrs ++ [("leptos-hk", hydrationKeyStr e.element.id)]
    else
      e.attrs ++ [("id", hydrationKeyStr e.element.id)]
  .Element e.element.name e.element.isVoid attrs e.children e.prerendered

/-- The `include` flag computed by the server branch of
`HtmlElement::class`: `Class::Value(include) => include`,
`Class::Fn(_, f) => f()` (a single call, modelled as `f 0`). -/
def classIncl (c : Class) : Bool :=
  match c with
  | .Value b => b
  | .Fn f => f 0

/-- The `find`-and-mutate step of the server branch of
`HtmlElement::class`: rewrites the first attribute named `class` to
`format!("{value} {name}")`, leaving everything else unchanged. -/
def appendToFirstClass (name : String) : List (String × String) → List (String × String)
  | [] => []
  | (k, v) :: rest =>
    if k == "class" then (k, v ++ " " ++ name) :: rest
    else (k, v) :: appendToFirstClass name rest

/-- `HtmlElement::class`, server (non-web) build: when the class value
evaluates to `true`, append `name` to the first existing `class`
attribute, or push a fresh `("class", name)` entry; when `false`, leave
the element unchanged. -/
def classServer (e : HtmlElementS) (name : String) (c : Class) : HtmlElementS :=
  if classIncl c then
    if e.attrs.any (fun p => p.1 == "class") then
      { e with attrs := appendToFirstClass name e.attrs }
    else
      { e with attrs := e.attrs ++ [("class", name)] }
  else e

/-- A concrete server-side element used to witness the `class` claim. -/
def c10Ex : HtmlElementS :=
  { element := { name := "div", isVoid := false, id := 0 },
    attrs := [("id", "x"), ("class", "a")], children := [], prerendered := none }

end LeptosDom

/-! ## Embedding of `meta/src/title.rs` -/

namespace LeptosMeta

/-- `TitleContext`: the current state of the document title.  `text` is
an optional `TextProp` (a closure producing the title text), `formatter`
an optional `Formatter` (a closure `String -> String`). -/
structure TitleContext where
  formatter : Option (String → String)
  text : Option (Unit → String)

/-- `TitleContext::as_string`: the text closure's output with the
formatter applied when one is set; `None` when no text is set. -/
def TitleContext.as_string (c : TitleContext) : Option String :=
  let title := c.text.map (fun f => f ())
  title.map (fun t =>
    match c.formatter with
    | some fmt => fmt t
    | none => t)

end LeptosMeta

/-! ## Model of the reactive runtime (signals, memos, effects, scopes)

The reactive core (`leptos_reactive`'s runtime) is not part of the
excerpt; the definitions below are modelled from the design spec
(sections 3 to 5): signals carry a value, a version and a subscriber
set; memos carry a computation, a dirty flag, a dependency set and a
cached value, and suppress downstream staleness when a recomputation
leaves their value unchanged; effects are eager subscribers rerun
through a deduplicated pending queue, drained at the close of the
outermost batch; scopes own nodes and cleanup callbacks and dispose
children depth-first, then cleanups in reverse registration order,
then invalidate owned nodes. -/

namespace Reactive

/-- Modelled from the spec: a subscriber handle (an entry of a signal's
or memo's subscriber set) - either a memo or an effect, by index. -/
inductive SubRef where
  | memoS (i : Nat)
  | effS (i : Nat)
deriving DecidableEq

/-- Modelled from the spec: a dependency handle (an entry of a memo's or
effect's dependency set) - either a signal or a memo, by index. -/
inductive SrcRef where
  | sigSrc (i : Nat)
  | memoSrc (i : Nat)
deriving DecidableEq

/-- Modelled from the spec: the body of a memo computation or effect
closure - a tracked computation that reads signals and memos.  (Effect
closures in the claims under study only read; they perform no writes.) -/
inductive RExpr where
  | lit (v : Int)
  | readSig (i : Nat)
  | readMemo (i : Nat)
  | add (a b : RExpr)
  | emod (a : RExpr) (m : Int)
deriving DecidableEq

/-- Modelled from the spec: a Signal node - current value, monotonically
increasing version, subscriber set (insertion-ordered), the equality-skip
configuration, and the disposed flag. -/
structure SignalN where
  value : Int
  version : Nat
  subs : List SubRef
  eqSkip : Bool
  disposed : Bool
deriving DecidableEq

/-- Modelled from the spec: a Memo node - computation closure, cached
value (`none` before the first computation), dirty flag, dependency set
captured during the last recomputation, subscriber set, disposed flag. -/
structure MemoN where
  compute : RExpr
  value : Option Int
  dirty : Bool
  deps : List SrcRef
  subs : List SubRef
  disposed : Bool
deriving DecidableEq

/-- Modelled from the spec: an Effect node - closure, transient dependency
set (replaced wholesale on each run), disposed flag. -/
structure EffectN where
  body : RExpr
  deps : List SrcRef
  disposed : Bool
deriving DecidableEq

/-- Modelled from the spec: the Runtime state - arena of nodes, the
active-observer stack, the deduplicated pending-effect queue, the
batch-depth counter, plus observation logs: `runLog` records each effect
run as (effect id, value its closure computed), `cleanupLog` records each
cleanup callback run (callbacks are identified by tokens). -/
structure RState where
  sigs : List SignalN
  memos : List MemoN
  effs : List EffectN
  obsStack : List SubRef
  pending : List Nat
  batchDepth : Nat
  runLog : List (Nat × Int)
  cleanupLog : List Nat
deriving DecidableEq

def getSig (st : RState) (i : Nat) : Option SignalN := st.sigs[i]?

def setSig (st : RState) (i : Nat) (s : SignalN) : RState :=
  { st with sigs := st.sigs.set i s }

def getMemo (st : RState) (i : Nat) : Option MemoN := st.memos[i]?

def setMemo (st : RState) (i : Nat) (m : MemoN) : RState :=
  { st with memos := st.memos.set i m }

def getEff (st : RState) (i : Nat) : Option EffectN := st.effs[i]?

def setEff (st : RState) (i : Nat) (e : EffectN) : RState :=
  { st with effs := st.effs.set i e }

/-- Insert into an insertion-ordered set: append unless already present
(signal reads and effect enqueueing are idempotent per the spec). -/
def insertUnique [DecidableEq α] (a : α) (l : List α) : List α :=
  if a ∈ l then l else l ++ [a]

/-- Modelled from the spec: record the edge source → observer in the
source's subscriber set. -/
def addSub (src : SrcRef) (o : SubRef) (st : RState) : RState :=
  match src with
  | .sigSrc i =>
    match getSig st i with
    | some s => setSig st i { s with subs := insertUnique o s.subs }
    | none => st
  | .memoSrc i =>
    match getMemo st i with
    | some m => setMemo st i { m with subs := insertUnique o m.subs }
    | none => st

/-- Modelled from the spec: record the source in the observer's
dependency set. -/
def addDep (o : SubRef) (src : SrcRef) (st : RState) : RState :=
  match o with
  | .memoS i =>
    match getMemo st i with
    | some m => setMemo st i { m with deps := insertUnique src m.deps }
    | none => st
  | .effS i =>
    match getEff st i with
    | some e => setEff st i { e with deps := insertUnique src e.deps }
    | none => st

/-- Modelled from the spec: a read performed while an observer is active
records the dependency edge in both directions; with no active observer
it records nothing. -/
def trackRead (src : SrcRef) (st : RState) : RState :=
  match st.obsStack with
  | [] => st
  | o :: _ => addDep o src (addSub src o st)

/-- Modelled from the spec: remove the observer from the source's
subscriber set (clearing a stale back-edge before re-tracking). -/
def removeSub (src : SrcRef) (o : SubRef) (st : RState) : RState :=
  match src with
  | .sigSrc i =>
    match getSig st i with
    | some s => setSig st i { s with subs := s.subs.filter (fun x => x ≠ o) }
    | none => st
  | .memoSrc i =>
    match getMemo st i with
    | some m => setMemo st i { m with subs := m.subs.filter (fun x => x ≠ o) }
    | none => st

def removeSubs (o : SubRef) (ds : List SrcRef) (st : RState) : RState :=
  match ds with
  | [] => st
  | d :: rest => removeSubs o rest (removeSub d o st)

/-- Modelled from the spec: discard the observer's previous dependency
set, removing its back-edges from every source it read last run. -/
def clearObserverDeps (o : SubRef) (st : RState) : RState :=
  match o with
  | .memoS i =>
    match getMemo st i with
    | some m => removeSubs o m.deps (setMemo st i { m with deps := [] })
    | none => st
  | .effS i =>
    match getEff st i with
    | some e => removeSubs o e.deps (setEff st i { e with deps := [] })
    | none => st

/-- Modelled from the spec: enqueue an effect into the pending queue,
deduplicated (an effect already pending is not re-enqueued). -/
def enqueueEff (e : Nat) (st : RState) : RState :=
  { st with pending := insertUnique e st.pending }

/-- Modelled from the spec: set a memo's dirty flag (a memo is marked
dirty when a recorded dependency reports a write; it is refreshed during
the same propagation pass, and suppresses downstream notification when
its recomputed value is unchanged). -/
def markMemoDirty (i : Nat) (st : RState) : RState :=
  match getMemo st i with
  | some m => setMemo st i { m with dirty := true }
  | none => st

/-- Modelled from the spec: read a signal - returns the current value and
records the dependency edge against the active observer; a disposed
signal returns its last-known value and records nothing (UseAfterDispose
is a logged no-op). -/
def readSigV (i : Nat) (st : RState) : Int × RState :=
  match getSig st i with
  | none => (0, st)
  | some s =>
    if s.disposed then (s.value, st)
    else (s.value, trackRead (.sigSrc i) st)

/-- The pending work items of the propagation interpreter: evaluate a
tracked computation, read a memo, refresh a memo, or notify a subscriber
list. -/
inductive RTask where
  | evalE (e : RExpr)
  | readM (i : Nat)
  | updateM (i : Nat)
  | notify (subs : List SubRef)

/-- Modelled from the spec: the single-threaded propagation interpreter.
`evalE` evaluates a tracked computation, recording dependency edges
against the active observer; reading a memo (`readM`) refreshes it
first.  `updateM` refreshes a dirty memo: it clears the previous
dependency set's back-edges, re-executes the computation with the memo
as the active observer (rebuilding the dependency set), then compares
the new value to the old - if unchanged it clears `dirty` and does not
propagate (glitch suppression); if changed it stores the value, clears
`dirty`, and notifies the memo's own subscribers exactly as a signal
write would.  `notify` enqueues subscribed effects (deduplicated) and
marks subscribed memos dirty, refreshing them within the same
propagation pass.  `fuel` decreases at every step; the reactive graph is
finite and acyclic in well-formed states, so enough fuel always exists,
but the embedding must terminate on all states. -/
def runTask : Nat → RTask → RState → Int × RState
  | 0, _, st => (0, st)
  | fuel + 1, .evalE e, st =>
    match e with
    | .lit v => (v, st)
    | .readSig i => readSigV i st
    | .readMemo i => runTask fuel (.readM i) st
    | .add a b =>
      let r1 := runTask fuel (.evalE a) st
      let r2 := runTask fuel (.evalE b) r1.2
      (r1.1 + r2.1, r2.2)
    | .emod a m =>
      let r1 := runTask fuel (.evalE a) st
      (r1.1 % m, r1.2)
  | fuel + 1, .readM i, st =>
    match getMemo st i with
    | none => (0, st)
    | some m =>
      if m.disposed then (m.value.getD 0, st)
      else
        let st1 := (runTask fuel (.updateM i) st).2
        match getMemo st1 i with
        | none => (0, st1)
        | some m1 => (m1.value.getD 0, trackRead (.memoSrc i) st1)
  | fuel + 1, .updateM i, st =>
    match getMemo st i with
    | none => (0, st)
    | some m =>
      if m.disposed || !m.dirty then (0, st)
      else
        let st1 := clearObserverDeps (.memoS i) st
        let st2 := { st1 with obsStack := .memoS i :: st1.obsStack }
        let r := runTask fuel (.evalE m.compute) st2
        let st4 := { r.2 with obsStack := r.2.obsStack.drop 1 }
        match getMemo st4 i with
        | none => (0, st4)
        | some m4 =>
          if m4.value = some r.1 then (0, setMemo st4 i { m4 with dirty := false })
          else
            (0, (runTask fuel (.notify m4.subs)
                  (setMemo st4 i { m4 with value := some r.1, dirty := false })).2)
  | fuel + 1, .notify subs, st =>
    match subs with
    | [] => (0, st)
    | .effS e :: rest => runTask fuel (.notify rest) (enqueueEff e st)
    | .memoS m :: rest =>
      runTask fuel (.notify rest)
        (runTask fuel (.updateM m) (markMemoDirty m st)).2

/-- Modelled from the spec: evaluation of a tracked computation (memo
computations and effect closures). -/
def evalExpr (fuel : Nat) (e : RExpr) (st : RState) : Int × RState :=
  runTask fuel (.evalE e) st

/-- Modelled from the spec: notify a subscriber list of a change. -/
def notifyF (fuel : Nat) (subs : List SubRef) (st : RState) : RState :=
  (runTask fuel (.notify subs) st).2

/-- Modelled from the spec: one effect run - discard the previous
dependency set's back-edges, push the effect onto the observer stack,
execute the closure (re-tracking dependencies), pop, and record the run
in the log. -/
def runEffectF (fuel : Nat) (e : Nat) (body : RExpr) (st : RState) : RState :=
  let st1 := clearObserverDeps (.effS e) st
  let st2 := { st1 with obsStack := .effS e :: st1.obsStack }
  let r := evalExpr fuel body st2
  let st4 := { r.2 with obsStack := r.2.obsStack.drop 1 }
  { st4 with runLog := st4.runLog ++ [(e, r.1)] }

/-- Modelled from the spec: drain the pending queue - pop effects in FIFO
order, skip any already disposed, rerun each. -/
def drainF (fuel : Nat) (st : RState) : RState :=
  match fuel with
  | 0 => st
  | fuel' + 1 =>
    match st.pending with
    | [] => st
    | e :: rest =>
      let st1 := { st with pending := rest }
      match getEff st1 e with
      | none => drainF fuel' st1
      | some ef =>
        if ef.disposed then drainF fuel' st1
        else drainF fuel' (runEffectF fuel' e ef.body st1)

/-- Modelled from the spec: write a signal - no-op on a disposed signal
(UseAfterDispose); skipped entirely (no version bump, no propagation)
when equality-skip is enabled and the new value equals the current one;
otherwise store the value, bump the version, notify the subscriber set
(memos marked dirty and refreshed, effects enqueued deduplicated), then
drain the pending queue unless inside an open batch. -/
def writeSig (fuel : Nat) (i : Nat) (v : Int) (st : RState) : RState :=
  match getSig st i with
  | none => st
  | some s =>
    if s.disposed then st
    else if s.eqSkip && (v == s.value) then st
    else
      let st1 := setSig st i { s with value := v, version := s.version + 1 }
      let st2 := notifyF fuel s.subs st1
      if st2.batchDepth == 0 then drainF fuel st2 else st2

/-- Modelled from the spec: `create_signal` - allocate a fresh signal
node with the given initial value and equality-skip configuration. -/
def create_signal (v : Int) (eqSkip : Bool) (st : RState) : Nat × RState :=
  (st.sigs.length,
   { st with sigs := st.sigs ++ [{ value := v, version := 0, subs := [],
                                   eqSkip := eqSkip, disposed := false }] })

/-- Modelled from the spec: `create_memo` - allocate a fresh memo node;
lazily computed, so it starts dirty with no cached value. -/
def create_memo (c : RExpr) (st : RState) : Nat × RState :=
  (st.memos.length,
   { st with memos := st.memos ++ [{ compute := c, value := none, dirty := true,
                                     deps := [], subs := [], disposed := false }] })

/-- Modelled from the spec: `create_effect` - allocate a fresh effect
node and run its closure immediately (synchronously) once, tracking
dependencies. -/
def create_effect (fuel : Nat) (b : RExpr) (st : RState) : Nat × RState :=
  let i := st.effs.length
  let st1 := { st with effs := st.effs ++ [{ body := b, deps := [], disposed := false }] }
  (i, runEffectF fuel i b st1)

/-- Modelled from the spec: a driver program for writes - a write, or a
`batch` of nested commands. -/
inductive WCmd where
  | wr (i : Nat) (v : Int)
  | bat (cs : List WCmd)

mutual

/-- Modelled from the spec: execute a driver command.  `batch` increments
the batch depth before running its body (suppressing queue draining for
all writes inside), decrements it on exit, and drains once if the depth
returned to zero; nested batches therefore coalesce into a single drain
at outermost exit. -/
def execCmd (fuel : Nat) (c : WCmd) (st : RState) : RState :=
  match c with
  | .wr i v => writeSig fuel i v st
  | .bat cs =>
    let st1 := { st with batchDepth := st.batchDepth + 1 }
    let st2 := execCmds fuel cs st1
    let st3 := { st2 with batchDepth := st2.batchDepth - 1 }
    if st3.batchDepth == 0 then drainF fuel st3 else st3

def execCmds (fuel : Nat) (cs : List WCmd) (st : RState) : RState :=
  match cs with
  | [] => st
  | c :: rest => execCmds fuel rest (execCmd fuel c st)

end

/-! ### Scopes and disposal -/

mutual

/-- Modelled from the spec: a Scope - disposed flag, cleanup-callback
tokens in registration order, the node handles it owns, and its child
scopes in creation order. -/
inductive ScopeTree where
  | mk (disposed : Bool) (cleanups : List Nat)
       (ownedSigs ownedMemos ownedEffs : List Nat)
       (children : ScopeForest)

inductive ScopeForest where
  | nil
  | cons (t : ScopeTree) (rest : ScopeForest)

end

def markSigsDisposed (ids : List Nat) (st : RState) : RState :=
  match ids with
  | [] => st
  | i :: rest =>
    match getSig st i with
    | some s => markSigsDisposed rest (setSig st i { s with disposed := true })
    | none => markSigsDisposed rest st

def markMemosDisposed (ids : List Nat) (st : RState) : RState :=
  match ids with
  | [] => st
  | i :: rest =>
    match getMemo st i with
    | some m => markMemosDisposed rest (setMemo st i { m with disposed := true })
    | none => markMemosDisposed rest st

def markEffsDisposed (ids : List Nat) (st : RState) : RState :=
  match ids with
  | [] => st
  | i :: rest =>
    match getEff st i with
    | some e => markEffsDisposed rest (setEff st i { e with disposed := true })
    | none => markEffsDisposed rest st

def subAlive (st : RState) (o : SubRef) : Bool :=
  match o with
  | .memoS i => match getMemo st i with
    | some m => !m.disposed
    | none => false
  | .effS i => match getEff st i with
    | some e => !e.disposed
    | none => false

def srcAlive (st : RState) (s : SrcRef) : Bool :=
  match s with
  | .sigSrc i => match getSig st i with
    | some sg => !sg.disposed
    | none => false
  | .memoSrc i => match getMemo st i with
    | some m => !m.disposed
    | none => false

/-- Modelled from the spec: after invalidating nodes, remove their
entries from every subscriber and dependency set in the graph (weak
back-references are pruned, not left dangling). -/
def pruneDisposed (st : RState) : RState :=
  { st with
    sigs := st.sigs.map (fun s => { s with subs := s.subs.filter (subAlive st) }),
    memos := st.memos.map (fun m => { m with subs := m.subs.filter (subAlive st),
                                             deps := m.deps.filter (srcAlive st) }),
    effs := st.effs.map (fun e => { e with deps := e.deps.filter (srcAlive st) }) }

mutual

/-- Modelled from the spec: dispose a scope - a no-op if already
disposed; otherwise recursively dispose child scopes depth-first, run the
scope's own cleanup callbacks in reverse registration order, then
invalidate every node it owns and prune their entries from subscriber
and dependency sets.  Returns the updated scope tree (now flagged
disposed) and runtime state. -/
def disposeTree (t : ScopeTree) (st : RState) : ScopeTree × RState :=
  match t with
  | .mk disposed cl os om oe ch =>
    if disposed then (t, st)
    else
      let r := disposeForest ch st
      let st2 := { r.2 with cleanupLog := r.2.cleanupLog ++ cl.reverse }
      let st3 := pruneDisposed
        (markEffsDisposed oe (markMemosDisposed om (markSigsDisposed os st2)))
      (.mk true cl os om oe r.1, st3)

def disposeForest (f : ScopeForest) (st : RState) : ScopeForest × RState :=
  match f with
  | .nil => (.nil, st)
  | .cons t rest =>
    let r1 := disposeTree t st
    let r2 := disposeForest rest r1.2
    (.cons r1.1 r2.1, r2.2)

end

mutual

/-- Cleanup tokens a disposal of this scope will run, in order: children
depth-first, then the scope's own callbacks in reverse registration
order; nothing for an already-disposed scope. -/
def cleanupTrace : ScopeTree → List Nat
  | .mk disposed cl _ _ _ ch => if disposed then [] else forestCleanupTrace ch ++ cl.reverse

def forestCleanupTrace : ScopeForest → List Nat
  | .nil => []
  | .cons t rest => cleanupTrace t ++ forestCleanupTrace rest

end

mutual

/-- Cleanup tokens registered under a scope and its descendants (in
registration order), counting only scopes not yet disposed. -/
def registeredCleanups : ScopeTree → List Nat
  | .mk disposed cl _ _ _ ch => if disposed then [] else forestRegisteredCleanups ch ++ cl

def forestRegisteredCleanups : ScopeForest → List Nat
  | .nil => []
  | .cons t rest => registeredCleanups t ++ forestRegisteredCleanups rest

end

mutual

/-- Signal handles owned transitively by a scope's not-yet-disposed part. -/
def ownedSigsRec : ScopeTree → List Nat
  | .mk disposed _ os _ _ ch => if disposed then [] else forestOwnedSigs ch ++ os

def forestOwnedSigs : ScopeForest → List Nat
  | .nil => []
  | .cons t rest => ownedSigsRec t ++ forestOwnedSigs rest

end

mutual

/-- Memo handles owned transitively by a scope's not-yet-disposed part. -/
def ownedMemosRec : ScopeTree → List Nat
  | .mk disposed _ _ om _ ch => if disposed then [] else forestOwnedMemos ch ++ om

def forestOwnedMemos : ScopeForest → List Nat
  | .nil => []
  | .cons t rest => ownedMemosRec t ++ forestOwnedMemos rest

end

mutual

/-- Effect handles owned transitively by a scope's not-yet-disposed part. -/
def ownedEffsRec : ScopeTree → List Nat
  | .mk disposed _ _ _ oe ch => if disposed then [] else forestOwnedEffs ch ++ oe

def forestOwnedEffs : ScopeForest → List Nat
  | .nil => []
  | .cons t rest => ownedEffsRec t ++ forestOwnedEffs rest

end

def sigDisposedB (st : RState) (i : Nat) : Bool :=
  match getSig st i with
  | some s => s.disposed
  | none => false

def memoDisposedB (st : RState) (i : Nat) : Bool :=
  match getMemo st i with
  | some m => m.disposed
  | none => false

def effDisposedB (st : RState) (i : Nat) : Bool :=
  match getEff st i with
  | some e => e.disposed
  | none => false

/-! ### Derived definitions used by the theorem statements -/

/-- The empty runtime (fresh root, nothing allocated). -/
def emptyState : RState :=
  { sigs := [], memos := [], effs := [], obsStack := [], pending := [],
    batchDepth := 0, runLog := [], cleanupLog := [] }

/-- The scenario of the glitch-freedom claim: Signal A with initial
value 2, Memo M computing `A % 2`, Effect E reading M (created last, so
its creation run subscribes E to M and M to A). -/
def c3Init : RState :=
  let r1 := create_signal 2 false emptyState
  let r2 := create_memo (.emod (.readSig 0) 2) r1.2
  let r3 := create_effect 100 (.readMemo 0) r2.2
  r3.2

def isEffS : SubRef → Bool
  | .effS _ => true
  | .memoS _ => false

/-- `true` when every subscriber of every signal is an effect. -/
def sigsEffOnly (sigs : List SignalN) : Bool :=
  sigs.all (fun s => s.subs.all isEffS)

/-- `true` when the computation reads only signals (no memo reads). -/
def sigOnlyB : RExpr → Bool
  | .lit _ => true
  | .readSig _ => true
  | .readMemo _ => false
  | .add a b => sigOnlyB a && sigOnlyB b
  | .emod a _ => sigOnlyB a

/-- Fuel sufficient for `runTask` to evaluate a computation: one step per
expression node along any evaluation path. -/
def exprFuelNeed : RExpr → Nat
  | .lit _ => 1
  | .readSig _ => 1
  | .readMemo _ => 1
  | .add a b => 1 + max (exprFuelNeed a) (exprFuelNeed b)
  | .emod a _ => 1 + exprFuelNeed a

/-- The pending queue obtained by enqueueing the effects of a subscriber
list (deduplicated, in order). -/
def enqueueList (subs : List SubRef) (pend : List Nat) : List Nat :=
  match subs with
  | [] => pend
  | .effS e :: rest => enqueueList rest (insertUnique e pend)
  | .memoS _ :: rest => enqueueList rest pend

/-- The effect of one deferred write on (signal arena, pending queue):
skipped for a missing or disposed signal and under equality-skip;
otherwise the value is stored, the version bumped, and the signal's
effect subscribers enqueued. -/
def pureWrite (p : List SignalN × List Nat) (w : Nat × Int) :
    List SignalN × List Nat :=
  match p.1[w.1]? with
  | none => p
  | some s =>
    if s.disposed then p
    else if s.eqSkip && (w.2 == s.value) then p
    else (p.1.set w.1 { s with value := w.2, version := s.version + 1 },
          enqueueList s.subs p.2)

def pureWrites (ws : List (Nat × Int)) (p : List SignalN × List Nat) :
    List SignalN × List Nat :=
  ws.foldl pureWrite p

mutual

/-- The writes performed by a driver command, flattened in order. -/
def flatW : WCmd → List (Nat × Int)
  | .wr i v => [(i, v)]
  | .bat cs => flatWs cs

def flatWs : List WCmd → List (Nat × Int)
  | [] => []
  | c :: rest => flatW c ++ flatWs rest

end

/-- Pure evaluation of a signal-only computation against a list of signal
values (missing indices read 0, matching `readSigV` on a missing node). -/
def evalPureL (vals : List Int) : RExpr → Int
  | .lit v => v
  | .readSig i => (vals[i]?).getD 0
  | .readMemo _ => 0
  | .add a b => evalPureL vals a + evalPureL vals b
  | .emod a m => evalPureL vals a % m

def sigValues (st : RState) : List Int := st.sigs.map (fun s => s.value)

def effAliveB (effs : List EffectN) (e : Nat) : Bool :=
  match effs[e]? with
  | some ef => !ef.disposed
  | none => false

def effBodyOf (effs : List EffectN) (e : Nat) : RExpr :=
  match effs[e]? with
  | some ef => ef.body
  | none => .lit 0

/-- The run-log entries produced by draining a queue: the not-disposed
effects, in queue order, each paired with its closure's value at the
settled signal values. -/
def drainLogPure (vals : List Int) (effs : List EffectN) (q : List Nat) :
    List (Nat × Int) :=
  (q.filter (effAliveB effs)).map (fun e => (e, evalPureL vals (effBodyOf effs e)))

/-- The body/disposed view of the effect arena (what draining depends on). -/
def effsView (st : RState) : List (RExpr × Bool) :=
  st.effs.map (fun e => (e.body, e.disposed))


/-- State components that a tracked, signal-only evaluation leaves
untouched: it only rewrites subscriber/dependency sets, so signal
values, the body/disposed view of effects, the pending queue, the run
log and the observer stack are all preserved. -/
def SameCore (st st' : RState) : Prop :=
  sigValues st' = sigValues st ∧
  effsView st' = effsView st ∧
  st'.pending = st.pending ∧
  st'.runLog = st.runLog ∧
  st'.obsStack = st.obsStack

/-- Example state for the batching claim: one signal (initial 0, no
equality skip) and one effect reading it; the effect's creation run is
logged as `(0, 0)`. -/
def c5Init : RState :=
  let r1 := create_signal 0 false emptyState
  let r2 := create_effect 100 (.readSig 0) r1.2
  r2.2

/-- Example state for the equality-skip claim: one signal with value 7
and equality-skip enabled, one effect subscribed to it. -/
def c4Init : RState :=
  let r1 := create_signal 7 true emptyState
  let r2 := create_effect 100 (.readSig 0) r1.2
  r2.2

/-- Example runtime for the disposal claim: signals 0 and 1, memo 0 and
effect 0 (effect 0 reads signal 0). -/
def c6Init : RState :=
  let r1 := create_signal 1 false emptyState
  let r2 := create_signal 2 false r1.2
  let r3 := create_memo (.readSig 0) r2.2
  let r4 := create_effect 100 (.readSig 0) r3.2
  r4.2

/-- Example scope for the disposal claim: a root owning signal 0, memo 0
and effect 0 with cleanups [1, 2], and one child scope owning signal 1
with cleanup [3]. -/
def c6Tree : ScopeTree :=
  .mk false [1, 2] [0] [0] [0]
    (.cons (.mk false [3] [1] [] [] .nil) .nil)

end Reactive


/-! ## Theorems -/

namespace SignalWrappersWrite

/-- C1: `SignalSetter` is a closed tagged variant with exactly two cases,
`Write` (a direct write-signal handle) and `Mapped` (a mapped closure);
`SignalSetter::set` dispatches by explicit matching, calling the wrapped
`WriteSignal`'s `set` in the `Write` case and invoking the stored closure
in the `Mapped` case; converting an `RwSignal` yields the `Write` case
over its write-only half. -/
theorem c1_signal_setter_closed_dispatch (T Eff : Type) (s : SignalSetter T Eff)
    (w : WriteSignal T Eff) (f : T → Eff) (v : T) (rw : RwSignal T Eff) :
    ((∃ w0, s.inner = .Write w0) ∨ (∃ f0, s.inner = .Mapped f0)) ∧
    SignalSetter.set ⟨.Write w⟩ v = w.set v ∧
    SignalSetter.set ⟨.Mapped f⟩ v = f v ∧
    signalSetterOfRw rw = ⟨.Write rw.write_only⟩ := by
  refine ⟨?_, rfl, rfl, rfl⟩
  cases h : s.inner with
  | Write w0 => exact .inl ⟨w0, rfl⟩
  | Mapped f0 => exact .inr ⟨f0, rfl⟩

end SignalWrappersWrite

namespace LeptosDom

/-- C2: in the browser build, `attr` with a function-valued attribute
registers exactly one render effect and performs no direct write; the
effect's run `n + 1` writes the attribute exactly when the newly
computed value differs from the value computed on run `n`, and the new
value becomes the state carried to the next run (the first run, with no
previous value, writes unconditionally); a non-function attribute is
written exactly once and registers no effect. -/
theorem c2_attr_browser_effect (el : Nat) (nm : String) (f : Nat → AttributeLit)
    (v : AttributeLit) (n : Nat) :
    attrBrowser el nm (.Fn f) = ([], 1) ∧
    attrBrowser el nm (.Lit v) = ([DomOp.SetAttr el nm v], 0) ∧
    attrEffectRunOps el nm f 0 = [DomOp.SetAttr el nm (f 0)] ∧
    attrEffectRunOps el nm f (n + 1) =
      (if f (n + 1) = f n then [] else [DomOp.SetAttr el nm (f (n + 1))]) ∧
    attrEffectCarried el nm f (n + 1) = some (f n) := by
  refine ⟨rfl, rfl, rfl, ?_, rfl⟩
  by_cases h : f (n + 1) = f n
  · simp [attrEffectRunOps, attrEffectStep, attrEffectCarried, h]
  · simp [attrEffectRunOps, attrEffectStep, attrEffectCarried, h, Ne.symm h]

/-- C7: in the browser build, `class` with a function-valued class
registers exactly one render effect; its run `n + 1` updates the class
list exactly when the boolean changed since run `n` (the new value
becoming the carried state), and the very first run applies the class
only when the value is `true` (a first-run `false` performs no update). -/
theorem c7_class_browser_effect (el : Nat) (nm : String) (f : Nat → Bool)
    (n : Nat) :
    classBrowser el nm (.Fn f) = ([], 1) ∧
    classEffectRunOps el nm f 0 =
      (if f 0 then [DomOp.SetClass el nm true] else []) ∧
    classEffectRunOps el nm f (n + 1) =
      (if f (n + 1) = f n then [] else [DomOp.SetClass el nm (f (n + 1))]) ∧
    classEffectCarried el nm f (n + 1) = some (f n) := by
  refine ⟨rfl, ?_, ?_, rfl⟩
  · cases h : f 0 <;>
      simp [classEffectRunOps, classEffectStep, classEffectCarried, h]
  · cases h1 : f (n + 1) <;> cases h2 : f n <;>
      simp [classEffectRunOps, classEffectStep, classEffectCarried, h1, h2]

/-- C8: in the server build, `into_view` appends exactly one
hydration-key attribute - `("id", "_{key}")` when no attribute named
`id` is present, `("leptos-hk", "_{key}")` otherwise - and carries all
previously recorded attributes, children and prerendered content over
unchanged. -/
theorem c8_server_into_view_hydration_key (e : HtmlElementS) :
    intoView e = .Element e.element.name e.element.isVoid
      (e.attrs ++ [((if e.attrs.any (fun p => p.1 == "id") then "leptos-hk" else "id"),
                    hydrationKeyStr e.element.id)])
      e.children e.prerendered := by
  unfold intoView
  by_cases h : e.attrs.any (fun p => p.1 == "id") <;> simp [h]

/-- C10: in the server build, `class(name, value)` with a value that
evaluates to `false` leaves the attribute list unchanged; with `true` it
appends `name`, preceded by a single space, to the first existing
`class` attribute if one is present, and otherwise pushes a fresh
`("class", name)` entry. -/
theorem c10_class_server_attrs (e : HtmlElementS) (nm v : String) (c : Class)
    (pre post : List (String × String))
    (hpre : ∀ p ∈ pre, p.1 ≠ "class") :
    (classServer e nm c =
      if classIncl c then
        (if e.attrs.any (fun p => p.1 == "class") then
          { e with attrs := appendToFirstClass nm e.attrs }
        else { e with attrs := e.attrs ++ [("class", nm)] })
      else e) ∧
    appendToFirstClass nm (pre ++ ("class", v) :: post) =
      pre ++ ("class", v ++ " " ++ nm) :: post ∧
    ((pre ++ ("class", v) :: post).any (fun p => p.1 == "class")) = true := by
  refine ⟨rfl, ?_, ?_⟩
  · induction pre with
    | nil => simp [appendToFirstClass]
    | cons hd tl ih =>
      have h1 : hd.1 ≠ "class" := hpre hd (List.mem_cons_self _ _)
      obtain ⟨k, w⟩ := hd
      simp only [List.cons_append, appendToFirstClass]
      rw [if_neg (by simpa using h1)]
      exact congrArg _ (ih (fun p hp => hpre p (List.mem_cons_of_mem _ hp)))
  · simp

/-- Witness for C10 at a concrete element carrying both an `id` and a
`class` attribute. -/
theorem c10_class_server_attrs_witness :
    (classServer c10Ex "b" (.Value true) =
      if classIncl (.Value true) then
        (if c10Ex.attrs.any (fun p => p.1 == "class") then
          { c10Ex with attrs := appendToFirstClass "b" c10Ex.attrs }
        else { c10Ex with attrs := c10Ex.attrs ++ [("class", "b")] })
      else c10Ex) ∧
    appendToFirstClass "b" ([("id", "x")] ++ ("class", "a") :: []) =
      [("id", "x")] ++ ("class", "a" ++ " " ++ "b") :: [] ∧
    (([("id", "x")] ++ ("class", "a") :: []).any (fun p => p.1 == "class")) = true :=
  c10_class_server_attrs c10Ex "b" "a" (.Value true) [("id", "x")] [] (by decide)

end LeptosDom

namespace LeptosMeta

/-- C9: `TitleContext::as_string` returns `none` exactly when no title
text is set; with text set it returns the text closure's output, with
the formatter applied when one is set and raw otherwise; a formatter
alone yields `none`. -/
theorem c9_title_as_string (c : TitleContext) (f : Unit → String)
    (fmt : String → String) :
    (c.as_string = none ↔ c.text = none) ∧
    TitleContext.as_string ⟨some fmt, some f⟩ = some (fmt (f ())) ∧
    TitleContext.as_string ⟨none, some f⟩ = some (f ()) ∧
    TitleContext.as_string ⟨some fmt, none⟩ = none := by
  refine ⟨?_, rfl, rfl, rfl⟩
  obtain ⟨cf, ct⟩ := c
  cases ct <;> simp [TitleContext.as_string]

end LeptosMeta

namespace Reactive

/-- C3: in the scenario Signal A (initial 2), Memo M computing `A % 2`,
Effect E reading M (whose creation run is the sole log entry `(0, 0)`),
writing A to 4 stores the value but does not rerun E: M recomputes to 0,
equal to its previous value, so it clears `dirty` without notifying its
own subscribers - the pending queue stays empty and the run log is
unchanged. -/
theorem c3_memo_glitch_suppression :
    c3Init.runLog = [(0, 0)] ∧
    (writeSig 100 0 4 c3Init).runLog = c3Init.runLog ∧
    (writeSig 100 0 4 c3Init).pending = [] ∧
    getMemo (writeSig 100 0 4 c3Init) 0 =
      some { compute := .emod (.readSig 0) 2, value := some 0, dirty := false,
             deps := [.sigSrc 0], subs := [.effS 0], disposed := false } ∧
    (getSig (writeSig 100 0 4 c3Init) 0).map (fun s => s.value) = some 4 := by
  decide

/-- C4: writing a value equal to the current value of a signal with
equality-skip enabled leaves the entire reactive state unchanged (no
version bump, no subscriber marked dirty or enqueued, no reruns). -/
theorem c4_equality_skip_write (fuel i : Nat) (v : Int) (st : RState)
    (s : SignalN) (h : getSig st i = some s) (he : s.eqSkip = true)
    (hv : v = s.value) :
    writeSig fuel i v st = st := by
  unfold writeSig
  rw [h]
  cases hd : s.disposed
  · simp [hd, he, hv]
  · simp [hd]

/-- Witness for C4: the example runtime `c4Init` (signal 0 has value 7
with equality-skip enabled and one effect subscribed); rewriting 7 is a
complete no-op. -/
theorem c4_equality_skip_write_witness :
    writeSig 100 0 7 c4Init = c4Init :=
  c4_equality_skip_write 100 0 7 c4Init
    { value := 7, version := 0, subs := [.effS 0], eqSkip := true, disposed := false }
    (by decide) rfl rfl

/-! ### Helper lemmas for the batching claim -/

theorem map_set_proj {α β : Type} (f : α → β) :
    ∀ (l : List α) (i : Nat) (a b : α), l[i]? = some b → f a = f b →
      (l.set i a).map f = l.map f := by
  intro l
  induction l with
  | nil => intro i a b h _; cases h
  | cons x xs ih =>
    intro i a b h hf
    cases i with
    | zero =>
      simp only [List.getElem?_cons_zero, Option.some.injEq] at h
      simp [List.set, h ▸ hf]
    | succ j =>
      simp only [List.getElem?_cons_succ] at h
      simp [List.set, ih j a b h hf]

theorem set_self_of_getElem {α : Type} :
    ∀ (l : List α) (i : Nat) (a : α), l[i]? = some a → l.set i a = l := by
  intro l
  induction l with
  | nil => intro i a h; cases h
  | cons x xs ih =>
    intro i a h
    cases i with
    | zero =>
      simp only [List.getElem?_cons_zero, Option.some.injEq] at h
      simp [List.set, h]
    | succ j =>
      simp only [List.getElem?_cons_succ] at h
      simp [List.set, ih j a h]

theorem insertUnique_nodup {α : Type} [DecidableEq α] (a : α) (l : List α)
    (h : l.Nodup) : (insertUnique a l).Nodup := by
  unfold insertUnique
  by_cases hm : a ∈ l
  · simpa [hm]
  · simp [hm, List.nodup_append, h]

theorem enqueueList_nodup (subs : List SubRef) :
    ∀ (pend : List Nat), pend.Nodup → (enqueueList subs pend).Nodup := by
  induction subs with
  | nil => intro pend h; exact h
  | cons hd tl ih =>
    intro pend h
    cases hd with
    | effS e => exact ih _ (insertUnique_nodup e pend h)
    | memoS m => exact ih _ h

theorem pureWrite_subsView (p : List SignalN × List Nat) (w : Nat × Int) :
    (pureWrite p w).1.map (fun s => s.subs) = p.1.map (fun s => s.subs) := by
  unfold pureWrite
  split
  · rfl
  · rename_i s h
    split
    · rfl
    · split
      · rfl
      · exact map_set_proj (fun sg : SignalN => sg.subs) p.1 w.1
          { s with value := w.2, version := s.version + 1 } s h rfl

theorem pureWrite_nodup (p : List SignalN × List Nat) (w : Nat × Int)
    (h : p.2.Nodup) : (pureWrite p w).2.Nodup := by
  unfold pureWrite
  split
  · exact h
  · rename_i s hg
    split
    · exact h
    · split
      · exact h
      · exact enqueueList_nodup s.subs p.2 h

theorem pureWrites_subsView (ws : List (Nat × Int)) :
    ∀ (p : List SignalN × List Nat),
      (pureWrites ws p).1.map (fun s => s.subs) = p.1.map (fun s => s.subs) := by
  induction ws with
  | nil => intro p; rfl
  | cons w rest ih =>
    intro p
    show (pureWrites rest (pureWrite p w)).1.map _ = _
    rw [ih (pureWrite p w), pureWrite_subsView]

theorem pureWrites_nodup (ws : List (Nat × Int)) :
    ∀ (p : List SignalN × List Nat), p.2.Nodup → (pureWrites ws p).2.Nodup := by
  induction ws with
  | nil => intro p h; exact h
  | cons w rest ih =>
    intro p h
    exact ih (pureWrite p w) (pureWrite_nodup p w h)

theorem sameCore_refl (st : RState) : SameCore st st :=
  ⟨rfl, rfl, rfl, rfl, rfl⟩

theorem sameCore_trans {a b c : RState} (h1 : SameCore a b) (h2 : SameCore b c) :
    SameCore a c := by
  obtain ⟨x1, x2, x3, x4, x5⟩ := h1
  obtain ⟨y1, y2, y3, y4, y5⟩ := h2
  exact ⟨y1.trans x1, y2.trans x2, y3.trans x3, y4.trans x4, y5.trans x5⟩

theorem sameCore_addSub (src : SrcRef) (o : SubRef) (st : RState) :
    SameCore st (addSub src o st) := by
  unfold addSub
  cases src with
  | sigSrc i =>
    cases h : getSig st i with
    | none => simp only [h]; exact sameCore_refl st
    | some sg =>
      simp only [h]
      exact ⟨map_set_proj (fun s : SignalN => s.value) st.sigs i
               { sg with subs := insertUnique o sg.subs } sg h rfl, rfl, rfl, rfl, rfl⟩
  | memoSrc i =>
    cases h : getMemo st i with
    | none => simp only [h]; exact sameCore_refl st
    | some m => simp only [h]; exact ⟨rfl, rfl, rfl, rfl, rfl⟩

theorem sameCore_addDep (o : SubRef) (src : SrcRef) (st : RState) :
    SameCore st (addDep o src st) := by
  unfold addDep
  cases o with
  | memoS i =>
    cases h : getMemo st i with
    | none => simp only [h]; exact sameCore_refl st
    | some m => simp only [h]; exact ⟨rfl, rfl, rfl, rfl, rfl⟩
  | effS i =>
    cases h : getEff st i with
    | none => simp only [h]; exact sameCore_refl st
    | some e =>
      simp only [h]
      exact ⟨rfl, map_set_proj (fun x : EffectN => (x.body, x.disposed)) st.effs i
               { e with deps := insertUnique src e.deps } e h rfl, rfl, rfl, rfl⟩

theorem sameCore_trackRead (src : SrcRef) (st : RState) :
    SameCore st (trackRead src st) := by
  unfold trackRead
  cases h : st.obsStack with
  | nil => exact sameCore_refl st
  | cons o rest =>
    exact sameCore_trans (sameCore_addSub src o st) (sameCore_addDep o src _)

theorem sameCore_removeSub (src : SrcRef) (o : SubRef) (st : RState) :
    SameCore st (removeSub src o st) := by
  unfold removeSub
  cases src with
  | sigSrc i =>
    cases h : getSig st i with
    | none => simp only [h]; exact sameCore_refl st
    | some sg =>
      simp only [h]
      exact ⟨map_set_proj (fun s : SignalN => s.value) st.sigs i
               { sg with subs := sg.subs.filter (fun x => x ≠ o) } sg h rfl,
             rfl, rfl, rfl, rfl⟩
  | memoSrc i =>
    cases h : getMemo st i with
    | none => simp only [h]; exact sameCore_refl st
    | some m => simp only [h]; exact ⟨rfl, rfl, rfl, rfl, rfl⟩

theorem sameCore_removeSubs (ds : List SrcRef) :
    ∀ (o : SubRef) (st : RState), SameCore st (removeSubs o ds st) := by
  induction ds with
  | nil => intro o st; exact sameCore_refl st
  | cons d rest ih =>
    intro o st
    exact sameCore_trans (sameCore_removeSub d o st) (ih o _)

theorem sameCore_clearObserverDeps (o : SubRef) (st : RState) :
    SameCore st (clearObserverDeps o st) := by
  unfold clearObserverDeps
  cases o with
  | memoS i =>
    cases h : getMemo st i with
    | none => simp only [h]; exact sameCore_refl st
    | some m =>
      simp only [h]
      exact sameCore_trans ⟨rfl, rfl, rfl, rfl, rfl⟩ (sameCore_removeSubs m.deps _ _)
  | effS i =>
    cases h : getEff st i with
    | none => simp only [h]; exact sameCore_refl st
    | some e =>
      simp only [h]
      refine sameCore_trans ?_ (sameCore_removeSubs e.deps _ _)
      exact ⟨rfl, map_set_proj (fun x : EffectN => (x.body, x.disposed)) st.effs i
               { e with deps := [] } e h rfl, rfl, rfl, rfl⟩

/-- Inside an open batch with only effect subscribers, `notify` just
enqueues (deduplicated). -/
theorem notify_effOnly (subs : List SubRef) :
    ∀ (fuel : Nat) (st : RState), subs.all isEffS = true → subs.length < fuel →
      runTask fuel (.notify subs) st =
        (0, { st with pending := enqueueList subs st.pending }) := by
  induction subs with
  | nil =>
    intro fuel st _ hf
    cases fuel with
    | zero => omega
    | succ f => rfl
  | cons hd tl ih =>
    intro fuel st hall hf
    cases fuel with
    | zero => omega
    | succ f =>
      cases hd with
      | memoS m => simp [isEffS] at hall
      | effS e =>
        have htl : tl.all isEffS = true := by
          simp only [List.all_cons, Bool.and_eq_true] at hall
          exact hall.2
        show runTask f (.notify tl) (enqueueEff e st) = _
        rw [ih f (enqueueEff e st) htl (by simpa using Nat.lt_of_succ_lt_succ hf)]
        rfl

theorem sigValues_getElem (st : RState) (i : Nat) :
    (sigValues st)[i]? = (st.sigs[i]?).map (fun s => s.value) := by
  simp [sigValues, List.getElem?_map]

/-- A signal-only tracked evaluation computes the pure value of the
expression at the current signal values and only rewrites
subscriber/dependency sets. -/
theorem evalE_sigOnly (e : RExpr) :
    ∀ (fuel : Nat) (st : RState), sigOnlyB e = true → exprFuelNeed e ≤ fuel →
      (runTask fuel (.evalE e) st).1 = evalPureL (sigValues st) e ∧
      SameCore st (runTask fuel (.evalE e) st).2 := by
  induction e with
  | lit v =>
    intro fuel st _ hf
    cases fuel with
    | zero => simp [exprFuelNeed] at hf
    | succ f => exact ⟨rfl, sameCore_refl st⟩
  | readSig i =>
    intro fuel st _ hf
    cases fuel with
    | zero => simp [exprFuelNeed] at hf
    | succ f =>
      show (readSigV i st).1 = _ ∧ SameCore st (readSigV i st).2
      unfold readSigV
      cases h : getSig st i with
      | none =>
        have h2 : st.sigs[i]? = none := h
        refine ⟨?_, sameCore_refl st⟩
        simp [evalPureL, sigValues_getElem, h2]
      | some sg =>
        have h2 : st.sigs[i]? = some sg := h
        cases hd : sg.disposed with
        | true =>
          simp only [h, hd]
          refine ⟨?_, sameCore_refl st⟩
          simp [evalPureL, sigValues_getElem, h2]
        | false =>
          simp only [h, hd]
          refine ⟨?_, sameCore_trackRead _ _⟩
          simp [evalPureL, sigValues_getElem, h2]
  | readMemo i =>
    intro fuel st hso _
    simp [sigOnlyB] at hso
  | add a b iha ihb =>
    intro fuel st hso hf
    simp only [sigOnlyB, Bool.and_eq_true] at hso
    cases fuel with
    | zero => simp [exprFuelNeed] at hf
    | succ f =>
      have hmax : max (exprFuelNeed a) (exprFuelNeed b) ≤ f := by
        simp only [exprFuelNeed] at hf; omega
      have hfa : exprFuelNeed a ≤ f := le_trans (le_max_left _ _) hmax
      have hfb : exprFuelNeed b ≤ f := le_trans (le_max_right _ _) hmax
      obtain ⟨ha1, ha2⟩ := iha f st hso.1 hfa
      obtain ⟨hb1, hb2⟩ := ihb f (runTask f (.evalE a) st).2 hso.2 hfb
      constructor
      · show (runTask f (.evalE a) st).1 +
            (runTask f (.evalE b) (runTask f (.evalE a) st).2).1 = _
        rw [ha1, hb1, ha2.1]; exact rfl
      · exact sameCore_trans ha2 hb2
  | emod a m iha =>
    intro fuel st hso hf
    simp only [sigOnlyB] at hso
    cases fuel with
    | zero => simp [exprFuelNeed] at hf
    | succ f =>
      have hfa : exprFuelNeed a ≤ f := by simp only [exprFuelNeed] at hf; omega
      obtain ⟨ha1, ha2⟩ := iha f st hso hfa
      exact ⟨by show (runTask f (.evalE a) st).1 % m = _; rw [ha1]; exact rfl, ha2⟩

/-- A run of a signal-only effect appends exactly one log entry - the
effect id with the closure's value at the current signal values - and
preserves signal values, the effect view, the pending queue and the
observer stack. -/
theorem runEffectF_sigOnly (fuel e : Nat) (body : RExpr) (st : RState)
    (hb : sigOnlyB body = true) (hf : exprFuelNeed body ≤ fuel) :
    sigValues (runEffectF fuel e body st) = sigValues st ∧
    effsView (runEffectF fuel e body st) = effsView st ∧
    (runEffectF fuel e body st).pending = st.pending ∧
    (runEffectF fuel e body st).runLog =
      st.runLog ++ [(e, evalPureL (sigValues st) body)] ∧
    (runEffectF fuel e body st).obsStack = st.obsStack := by
  unfold runEffectF
  obtain ⟨c1, c2, c3, c4, c5⟩ := sameCore_clearObserverDeps (.effS e) st
  set st1 := clearObserverDeps (.effS e) st with hst1
  set st2 : RState := { st1 with obsStack := .effS e :: st1.obsStack } with hst2
  have g1 : sigValues st2 = sigValues st := c1
  have g2 : effsView st2 = effsView st := c2
  have g3 : st2.pending = st.pending := c3
  have g4 : st2.runLog = st.runLog := c4
  obtain ⟨e1, e2⟩ := evalE_sigOnly body fuel st2 hb hf
  obtain ⟨d1, d2, d3, d4, d5⟩ := e2
  refine ⟨?_, ?_, ?_, ?_, ?_⟩
  · show sigValues (runTask fuel (.evalE body) st2).2 = sigValues st
    rw [d1, g1]
  · show effsView (runTask fuel (.evalE body) st2).2 = effsView st
    rw [d2, g2]
  · show (runTask fuel (.evalE body) st2).2.pending = st.pending
    rw [d3]; exact g3
  · show (runTask fuel (.evalE body) st2).2.runLog ++
        [(e, (runTask fuel (.evalE body) st2).1)] =
        st.runLog ++ [(e, evalPureL (sigValues st) body)]
    rw [d4, g4, e1, g1]
  · show (runTask fuel (.evalE body) st2).2.obsStack.drop 1 = st.obsStack
    rw [d5]
    show (SubRef.effS e :: st1.obsStack).drop 1 = st.obsStack
    rw [List.drop_one, List.tail_cons]
    exact c5

theorem sigsEffOnly_of_view (sigs sigs' : List SignalN)
    (hv : sigs'.map (fun s => s.subs) = sigs.map (fun s => s.subs))
    (h : sigsEffOnly sigs = true) : sigsEffOnly sigs' = true := by
  unfold sigsEffOnly at *
  rw [List.all_eq_true] at *
  intro s hs
  have hmem : s.subs ∈ sigs'.map (fun s => s.subs) :=
    List.mem_map_of_mem _ hs
  rw [hv] at hmem
  obtain ⟨t, ht, hts⟩ := List.mem_map.mp hmem
  rw [← hts]
  exact h t ht

theorem subsLen_of_view (sigs sigs' : List SignalN) (fuel : Nat)
    (hv : sigs'.map (fun s => s.subs) = sigs.map (fun s => s.subs))
    (h : ∀ s ∈ sigs, s.subs.length < fuel) :
    ∀ s ∈ sigs', s.subs.length < fuel := by
  intro s hs
  have hmem : s.subs ∈ sigs'.map (fun s => s.subs) :=
    List.mem_map_of_mem _ hs
  rw [hv] at hmem
  obtain ⟨t, ht, hts⟩ := List.mem_map.mp hmem
  rw [← hts]
  exact h t ht

/-- A write performed inside an open batch updates the signal arena and
the pending queue exactly as `pureWrite` describes (no drain occurs). -/
theorem writeSig_batched (fuel i : Nat) (v : Int) (st : RState)
    (hd : st.batchDepth ≠ 0) (hsubs : sigsEffOnly st.sigs = true)
    (hlen : ∀ s ∈ st.sigs, s.subs.length < fuel) :
    writeSig fuel i v st =
      { st with sigs := (pureWrite (st.sigs, st.pending) (i, v)).1,
                pending := (pureWrite (st.sigs, st.pending) (i, v)).2 } := by
  unfold writeSig pureWrite
  cases h : getSig st i with
  | none =>
    have h2 : st.sigs[i]? = none := h
    simp only [h2]
  | some s =>
    have h2 : st.sigs[i]? = some s := h
    simp only [h2]
    by_cases hdis : s.disposed = true
    · simp only [if_pos hdis]
    · simp only [if_neg hdis]
      by_cases hsk : (s.eqSkip && (v == s.value)) = true
      · simp only [if_pos hsk]
      · simp only [if_neg hsk]
        have hmem : s ∈ st.sigs := List.getElem?_mem h2
        have hall : s.subs.all isEffS = true :=
          List.all_eq_true.mpr (fun x hx =>
            (List.all_eq_true.mp ((List.all_eq_true.mp hsubs) s hmem)) x hx) 
        have hlt : s.subs.length < fuel := hlen s hmem
        rw [show notifyF fuel s.subs
              (setSig st i { s with value := v, version := s.version + 1 }) =
            (runTask fuel (.notify s.subs)
              (setSig st i { s with value := v, version := s.version + 1 })).2 from rfl]
        rw [notify_effOnly s.subs fuel _ hall hlt]
        split
        · rename_i hcond
          exact absurd (by simpa using hcond : st.batchDepth = 0) hd
        · rfl

mutual

/-- Inside an open batch (with only effect subscribers), a driver command
only updates signal values/versions and accumulates the deduplicated
pending queue - no effect reruns, exactly as the pure write fold says. -/
theorem execCmd_batched (fuel : Nat) (c : WCmd) :
    ∀ (st : RState), st.batchDepth ≠ 0 → sigsEffOnly st.sigs = true →
      (∀ s ∈ st.sigs, s.subs.length < fuel) →
      execCmd fuel c st =
        { st with sigs := (pureWrites (flatW c) (st.sigs, st.pending)).1,
                  pending := (pureWrites (flatW c) (st.sigs, st.pending)).2 } := by
  cases c with
  | wr i v =>
    intro st hd hsubs hlen
    simp only [execCmd, flatW]
    exact writeSig_batched fuel i v st hd hsubs hlen
  | bat cs =>
    intro st hd hsubs hlen
    obtain ⟨sg, mm, ef, ob, pe, bd, rl, cl⟩ := st
    simp only [execCmd]
    have h1 := execCmds_batched fuel cs ⟨sg, mm, ef, ob, pe, bd + 1, rl, cl⟩
      (by simp) hsubs hlen
    rw [h1]
    split
    · rename_i hcond
      exact absurd (by simpa using hcond : bd = 0) (by simpa using hd)
    · simp [flatW]

theorem execCmds_batched (fuel : Nat) (cs : List WCmd) :
    ∀ (st : RState), st.batchDepth ≠ 0 → sigsEffOnly st.sigs = true →
      (∀ s ∈ st.sigs, s.subs.length < fuel) →
      execCmds fuel cs st =
        { st with sigs := (pureWrites (flatWs cs) (st.sigs, st.pending)).1,
                  pending := (pureWrites (flatWs cs) (st.sigs, st.pending)).2 } := by
  cases cs with
  | nil =>
    intro st _ _ _
    simp only [execCmds, flatWs]
    rfl
  | cons c rest =>
    intro st hd hsubs hlen
    simp only [execCmds]
    rw [execCmd_batched fuel c st hd hsubs hlen]
    have hview := pureWrites_subsView (flatW c) (st.sigs, st.pending)
    have hsubs2 : sigsEffOnly (pureWrites (flatW c) (st.sigs, st.pending)).1 = true :=
      sigsEffOnly_of_view st.sigs _ hview hsubs
    have hlen2 := subsLen_of_view st.sigs _ fuel hview hlen
    rw [execCmds_batched fuel rest
      { st with sigs := (pureWrites (flatW c) (st.sigs, st.pending)).1,
                pending := (pureWrites (flatW c) (st.sigs, st.pending)).2 }
      hd hsubs2 hlen2]
    simp [flatWs, pureWrites, List.foldl_append]

end

theorem effAliveB_of_view (effs effs' : List EffectN)
    (hv : effs'.map (fun x => (x.body, x.disposed)) =
          effs.map (fun x => (x.body, x.disposed))) (x : Nat) :
    effAliveB effs' x = effAliveB effs x := by
  have h := congrArg (fun l => l[x]?) hv
  simp only [List.getElem?_map] at h
  unfold effAliveB
  cases h1 : effs'[x]? with
  | none =>
    cases h2 : effs[x]? with
    | none => rfl
    | some b => rw [h1, h2] at h; simp at h
  | some a =>
    cases h2 : effs[x]? with
    | none => rw [h1, h2] at h; simp at h
    | some b =>
      rw [h1, h2] at h
      simp only [Option.map_some', Option.some.injEq, Prod.mk.injEq] at h
      simp [h.2]

theorem effBodyOf_of_view (effs effs' : List EffectN)
    (hv : effs'.map (fun x => (x.body, x.disposed)) =
          effs.map (fun x => (x.body, x.disposed))) (x : Nat) :
    effBodyOf effs' x = effBodyOf effs x := by
  have h := congrArg (fun l => l[x]?) hv
  simp only [List.getElem?_map] at h
  unfold effBodyOf
  cases h1 : effs'[x]? with
  | none =>
    cases h2 : effs[x]? with
    | none => rfl
    | some b => rw [h1, h2] at h; simp at h
  | some a =>
    cases h2 : effs[x]? with
    | none => rw [h1, h2] at h; simp at h
    | some b =>
      rw [h1, h2] at h
      simp only [Option.map_some', Option.some.injEq, Prod.mk.injEq] at h
      simp [h.1]

theorem drainLogPure_congr (vals : List Int) (effs effs' : List EffectN)
    (hv : effs'.map (fun x => (x.body, x.disposed)) =
          effs.map (fun x => (x.body, x.disposed))) (q : List Nat) :
    drainLogPure vals effs' q = drainLogPure vals effs q := by
  unfold drainLogPure
  rw [List.filter_congr (fun x _ => effAliveB_of_view effs effs' hv x)]
  exact List.map_congr_left (fun x _ => by rw [effBodyOf_of_view effs effs' hv x])

theorem allSigOnly_of_view (effs effs' : List EffectN)
    (hv : effs'.map (fun x => (x.body, x.disposed)) =
          effs.map (fun x => (x.body, x.disposed)))
    (h : effs.all (fun ef => sigOnlyB ef.body) = true) :
    effs'.all (fun ef => sigOnlyB ef.body) = true := by
  rw [List.all_eq_true] at *
  intro ef hef
  have hmem : (ef.body, ef.disposed) ∈
      effs'.map (fun x => (x.body, x.disposed)) :=
    List.mem_map_of_mem _ hef
  rw [hv] at hmem
  obtain ⟨t, ht, hts⟩ := List.mem_map.mp hmem
  have hbody : t.body = ef.body := congrArg Prod.fst hts
  have h2 : sigOnlyB t.body = true := h t ht
  rw [hbody] at h2
  exact h2

theorem needBound_of_view (effs effs' : List EffectN) (B : Nat)
    (hv : effs'.map (fun x => (x.body, x.disposed)) =
          effs.map (fun x => (x.body, x.disposed)))
    (h : ∀ ef ∈ effs, exprFuelNeed ef.body ≤ B) :
    ∀ ef ∈ effs', exprFuelNeed ef.body ≤ B := by
  intro ef hef
  have hmem : (ef.body, ef.disposed) ∈ effs'.map (fun x => (x.body, x.disposed)) :=
    List.mem_map_of_mem _ hef
  rw [hv] at hmem
  obtain ⟨t, ht, hts⟩ := List.mem_map.mp hmem
  have : t.body = ef.body := congrArg Prod.fst hts
  rw [← this]
  exact h t ht

theorem drainLogPure_cons_alive (vals : List Int) (effs : List EffectN)
    (e : Nat) (rest : List Nat) (h : effAliveB effs e = true) :
    drainLogPure vals effs (e :: rest) =
      (e, evalPureL vals (effBodyOf effs e)) :: drainLogPure vals effs rest := by
  simp [drainLogPure, List.filter_cons, h]

theorem drainLogPure_cons_dead (vals : List Int) (effs : List EffectN)
    (e : Nat) (rest : List Nat) (h : effAliveB effs e = false) :
    drainLogPure vals effs (e :: rest) = drainLogPure vals effs rest := by
  simp [drainLogPure, List.filter_cons, h]

/-- Draining a queue of signal-only effects empties the queue, leaves
signal values unchanged, and appends exactly one run-log entry per
not-disposed queued effect, in queue order, each carrying the closure's
value at the settled signal values. -/
theorem drainF_sigOnly (q : List Nat) :
    ∀ (fuel B : Nat) (st : RState), st.pending = q →
      st.effs.all (fun ef => sigOnlyB ef.body) = true →
      (∀ ef ∈ st.effs, exprFuelNeed ef.body ≤ B) →
      q.length + B < fuel →
      (drainF fuel st).runLog = st.runLog ++ drainLogPure (sigValues st) st.effs q ∧
      (drainF fuel st).pending = [] ∧
      sigValues (drainF fuel st) = sigValues st := by
  induction q with
  | nil =>
    intro fuel B st hq hall hB hf
    cases fuel with
    | zero => omega
    | succ f =>
      rw [show drainF (f + 1) st = st from by simp only [drainF, hq]]
      refine ⟨by simp [drainLogPure], hq, rfl⟩
  | cons e rest ih =>
    intro fuel B st hq hall hB hf
    obtain ⟨sg, mm, efs, ob, pe, bd, rl, cl⟩ := st
    have hq2 : pe = e :: rest := hq
    subst hq2
    cases fuel with
    | zero => omega
    | succ f =>
      have hlen : rest.length + B < f := by
        simp only [List.length_cons] at hf; omega
      cases hg : efs[e]? with
      | none =>
        have step : drainF (f + 1) (⟨sg, mm, efs, ob, e :: rest, bd, rl, cl⟩ : RState) =
            drainF f ⟨sg, mm, efs, ob, rest, bd, rl, cl⟩ := by
          show (match getEff (⟨sg, mm, efs, ob, rest, bd, rl, cl⟩ : RState) e with
                | none => drainF f (⟨sg, mm, efs, ob, rest, bd, rl, cl⟩ : RState)
                | some ef =>
                  if ef.disposed then
                    drainF f (⟨sg, mm, efs, ob, rest, bd, rl, cl⟩ : RState)
                  else drainF f (runEffectF f e ef.body
                    (⟨sg, mm, efs, ob, rest, bd, rl, cl⟩ : RState))) =
              drainF f (⟨sg, mm, efs, ob, rest, bd, rl, cl⟩ : RState)
          rw [show getEff (⟨sg, mm, efs, ob, rest, bd, rl, cl⟩ : RState) e = none from hg]
        have halive : effAliveB efs e = false := by simp [effAliveB, hg]
        have hrec := ih f B ⟨sg, mm, efs, ob, rest, bd, rl, cl⟩ rfl hall hB hlen
        rw [step]
        refine ⟨?_, hrec.2.1, hrec.2.2⟩
        rw [hrec.1, drainLogPure_cons_dead _ _ _ _ halive]
        exact rfl
      | some ef =>
        cases hdis : ef.disposed with
        | true =>
          have step : drainF (f + 1) (⟨sg, mm, efs, ob, e :: rest, bd, rl, cl⟩ : RState) =
              drainF f ⟨sg, mm, efs, ob, rest, bd, rl, cl⟩ := by
            show (match getEff (⟨sg, mm, efs, ob, rest, bd, rl, cl⟩ : RState) e with
                  | none => drainF f (⟨sg, mm, efs, ob, rest, bd, rl, cl⟩ : RState)
                  | some ef =>
                    if ef.disposed then
                      drainF f (⟨sg, mm, efs, ob, rest, bd, rl, cl⟩ : RState)
                    else drainF f (runEffectF f e ef.body
                      (⟨sg, mm, efs, ob, rest, bd, rl, cl⟩ : RState))) =
                drainF f (⟨sg, mm, efs, ob, rest, bd, rl, cl⟩ : RState)
            rw [show getEff (⟨sg, mm, efs, ob, rest, bd, rl, cl⟩ : RState) e =
                some ef from hg]
            simp [hdis]
          have halive : effAliveB efs e = false := by simp [effAliveB, hg, hdis]
          have hrec := ih f B ⟨sg, mm, efs, ob, rest, bd, rl, cl⟩ rfl hall hB hlen
          rw [step]
          refine ⟨?_, hrec.2.1, hrec.2.2⟩
          rw [hrec.1, drainLogPure_cons_dead _ _ _ _ halive]
          exact rfl
        | false =>
          have step : drainF (f + 1) (⟨sg, mm, efs, ob, e :: rest, bd, rl, cl⟩ : RState) =
              drainF f (runEffectF f e ef.body
                ⟨sg, mm, efs, ob, rest, bd, rl, cl⟩) := by
            show (match getEff (⟨sg, mm, efs, ob, rest, bd, rl, cl⟩ : RState) e with
                  | none => drainF f (⟨sg, mm, efs, ob, rest, bd, rl, cl⟩ : RState)
                  | some ef =>
                    if ef.disposed then
                      drainF f (⟨sg, mm, efs, ob, rest, bd, rl, cl⟩ : RState)
                    else drainF f (runEffectF f e ef.body
                      (⟨sg, mm, efs, ob, rest, bd, rl, cl⟩ : RState))) =
                drainF f (runEffectF f e ef.body
                  ⟨sg, mm, efs, ob, rest, bd, rl, cl⟩)
            rw [show getEff (⟨sg, mm, efs, ob, rest, bd, rl, cl⟩ : RState) e =
                some ef from hg]
            simp [hdis]
          have hmem : ef ∈ efs := List.getElem?_mem hg
          have hb : sigOnlyB ef.body = true := List.all_eq_true.mp hall ef hmem
          have hBe : exprFuelNeed ef.body ≤ f := le_trans (hB ef hmem) (by omega)
          obtain ⟨r1, r2, r3, r4, r5⟩ := runEffectF_sigOnly f e ef.body
            ⟨sg, mm, efs, ob, rest, bd, rl, cl⟩ hb hBe
          have hview2 : (runEffectF f e ef.body
              (⟨sg, mm, efs, ob, rest, bd, rl, cl⟩ : RState)).effs.map
                (fun x => (x.body, x.disposed)) =
              efs.map (fun x => (x.body, x.disposed)) := r2
          have hp2 : (runEffectF f e ef.body
              (⟨sg, mm, efs, ob, rest, bd, rl, cl⟩ : RState)).pending = rest := r3
          have hrec := ih f B (runEffectF f e ef.body
              ⟨sg, mm, efs, ob, rest, bd, rl, cl⟩)
            hp2 (allSigOnly_of_view efs _ hview2 hall)
            (needBound_of_view efs _ B hview2 hB) hlen
          rw [step]
          have halive : effAliveB efs e = true := by simp [effAliveB, hg, hdis]
          refine ⟨?_, hrec.2.1, by rw [hrec.2.2]; exact r1⟩
          rw [hrec.1, r4, drainLogPure_congr _ efs _ hview2 rest]
          rw [show sigValues (runEffectF f e ef.body
              (⟨sg, mm, efs, ob, rest, bd, rl, cl⟩ : RState)) =
              sigValues (⟨sg, mm, efs, ob, rest, bd, rl, cl⟩ : RState) from r1]
          rw [drainLogPure_cons_alive _ _ _ _ halive]
          rw [show effBodyOf efs e = ef.body from by simp [effBodyOf, hg]]
          rw [List.append_assoc]
          rfl

/-- C5: all writes performed inside one batch (nested batches included)
are deferred: no effect runs during the batch, and at outermost exit the
accumulated pending queue - which is deduplicated, so it lists each
dependent effect exactly once - is drained in one pass, each not-disposed
pending effect rerunning exactly once and observing only the final
settled signal values. -/
theorem c5_batch_single_drain (fuel B : Nat) (cs : List WCmd) (st : RState)
    (hd : st.batchDepth = 0) (hp : st.pending = [])
    (hsubs : sigsEffOnly st.sigs = true)
    (hall : st.effs.all (fun ef => sigOnlyB ef.body) = true)
    (hB : ∀ ef ∈ st.effs, exprFuelNeed ef.body ≤ B)
    (hlen : ∀ s ∈ st.sigs, s.subs.length < fuel)
    (hfuel : (pureWrites (flatWs cs) (st.sigs, [])).2.length + B < fuel) :
    (execCmd fuel (.bat cs) st).runLog =
      st.runLog ++ drainLogPure
        ((pureWrites (flatWs cs) (st.sigs, [])).1.map (fun s => s.value))
        st.effs (pureWrites (flatWs cs) (st.sigs, [])).2 ∧
    (pureWrites (flatWs cs) (st.sigs, [])).2.Nodup ∧
    (execCmd fuel (.bat cs) st).pending = [] ∧
    (execCmd fuel (.bat cs) st).sigs.map (fun s => s.value) =
      (pureWrites (flatWs cs) (st.sigs, [])).1.map (fun s => s.value) := by
  obtain ⟨sg, mm, efs, ob, pe, bd, rl, cl⟩ := st
  have hd2 : bd = 0 := hd
  have hp2 : pe = [] := hp
  subst hd2
  subst hp2
  have h1 := execCmds_batched fuel cs (⟨sg, mm, efs, ob, [], 0 + 1, rl, cl⟩ : RState)
    (by simp) hsubs hlen
  have hstep : execCmd fuel (.bat cs) (⟨sg, mm, efs, ob, [], 0, rl, cl⟩ : RState) =
      drainF fuel ⟨(pureWrites (flatWs cs) (sg, [])).1, mm, efs, ob,
        (pureWrites (flatWs cs) (sg, [])).2, 0, rl, cl⟩ := by
    simp only [execCmd]
    rw [h1]
    rfl
  rw [hstep]
  obtain ⟨d1, d2, d3⟩ := drainF_sigOnly (pureWrites (flatWs cs) (sg, [])).2 fuel B
    (⟨(pureWrites (flatWs cs) (sg, [])).1, mm, efs, ob,
      (pureWrites (flatWs cs) (sg, [])).2, 0, rl, cl⟩ : RState)
    rfl hall hB hfuel
  refine ⟨?_, pureWrites_nodup (flatWs cs) (sg, []) List.nodup_nil, d2, ?_⟩
  · rw [d1]; rfl
  · exact d3

/-- Witness for C5: in the runtime `c5Init` (signal 0 initially 0 with
effect 0 subscribed), `batch(write(0, 1); batch(write(0, 2)))` reruns the
effect exactly once, at outermost exit, observing the settled value 2. -/
theorem c5_batch_single_drain_witness :
    (execCmd 100 (.bat [.wr 0 1, .bat [.wr 0 2]]) c5Init).runLog =
      c5Init.runLog ++ drainLogPure
        ((pureWrites (flatWs [.wr 0 1, .bat [.wr 0 2]]) (c5Init.sigs, [])).1.map
          (fun s => s.value))
        c5Init.effs (pureWrites (flatWs [.wr 0 1, .bat [.wr 0 2]]) (c5Init.sigs, [])).2 ∧
    (pureWrites (flatWs [.wr 0 1, .bat [.wr 0 2]]) (c5Init.sigs, [])).2.Nodup ∧
    (execCmd 100 (.bat [.wr 0 1, .bat [.wr 0 2]]) c5Init).pending = [] ∧
    (execCmd 100 (.bat [.wr 0 1, .bat [.wr 0 2]]) c5Init).sigs.map (fun s => s.value) =
      (pureWrites (flatWs [.wr 0 1, .bat [.wr 0 2]]) (c5Init.sigs, [])).1.map
        (fun s => s.value) :=
  c5_batch_single_drain 100 1 [.wr 0 1, .bat [.wr 0 2]] c5Init
    rfl rfl (by decide) (by decide) (by decide) (by decide) (by decide)

/-! ### Helper lemmas for the disposal claim -/

theorem getElem_set_split {α : Type} :
    ∀ (l : List α) (i j : Nat) (a : α),
      (l.set i a)[j]? = if i = j ∧ i < l.length then some a else l[j]? := by
  intro l
  induction l with
  | nil => intro i j a; simp
  | cons x xs ih =>
    intro i j a
    cases i with
    | zero =>
      cases j with
      | zero => simp
      | succ j2 => simp
    | succ i2 =>
      cases j with
      | zero => simp [List.set]
      | succ j2 =>
        simp only [List.set, List.getElem?_cons_succ, ih i2 j2 a, List.length_cons]
        by_cases h : i2 = j2 ∧ i2 < xs.length
        · rw [if_pos h, if_pos ⟨by omega, by omega⟩]
        · rw [if_neg h, if_neg (by omega)]

theorem markSigsDisposed_props (ids : List Nat) :
    ∀ (st : RState),
      (markSigsDisposed ids st).cleanupLog = st.cleanupLog ∧
      (markSigsDisposed ids st).sigs.length = st.sigs.length ∧
      (markSigsDisposed ids st).memos = st.memos ∧
      (markSigsDisposed ids st).effs = st.effs := by
  induction ids with
  | nil => intro st; exact ⟨rfl, rfl, rfl, rfl⟩
  | cons i rest ih =>
    intro st
    cases h : getSig st i with
    | none =>
      rw [show markSigsDisposed (i :: rest) st = markSigsDisposed rest st from by
        simp only [markSigsDisposed, h]]
      exact ih st
    | some sgn =>
      rw [show markSigsDisposed (i :: rest) st =
          markSigsDisposed rest (setSig st i { sgn with disposed := true }) from by
        simp only [markSigsDisposed, h]]
      obtain ⟨a, b, c, d⟩ := ih (setSig st i { sgn with disposed := true })
      refine ⟨a, ?_, c, d⟩
      rw [b]
      exact List.length_set ..

theorem markMemosDisposed_props (ids : List Nat) :
    ∀ (st : RState),
      (markMemosDisposed ids st).cleanupLog = st.cleanupLog ∧
      (markMemosDisposed ids st).memos.length = st.memos.length ∧
      (markMemosDisposed ids st).sigs = st.sigs ∧
      (markMemosDisposed ids st).effs = st.effs := by
  induction ids with
  | nil => intro st; exact ⟨rfl, rfl, rfl, rfl⟩
  | cons i rest ih =>
    intro st
    cases h : getMemo st i with
    | none =>
      rw [show markMemosDisposed (i :: rest) st = markMemosDisposed rest st from by
        simp only [markMemosDisposed, h]]
      exact ih st
    | some m =>
      rw [show markMemosDisposed (i :: rest) st =
          markMemosDisposed rest (setMemo st i { m with disposed := true }) from by
        simp only [markMemosDisposed, h]]
      obtain ⟨a, b, c, d⟩ := ih (setMemo st i { m with disposed := true })
      refine ⟨a, ?_, c, d⟩
      rw [b]
      exact List.length_set ..

theorem markEffsDisposed_props (ids : List Nat) :
    ∀ (st : RState),
      (markEffsDisposed ids st).cleanupLog = st.cleanupLog ∧
      (markEffsDisposed ids st).effs.length = st.effs.length ∧
      (markEffsDisposed ids st).sigs = st.sigs ∧
      (markEffsDisposed ids st).memos = st.memos := by
  induction ids with
  | nil => intro st; exact ⟨rfl, rfl, rfl, rfl⟩
  | cons i rest ih =>
    intro st
    cases h : getEff st i with
    | none =>
      rw [show markEffsDisposed (i :: rest) st = markEffsDisposed rest st from by
        simp only [markEffsDisposed, h]]
      exact ih st
    | some ef =>
      rw [show markEffsDisposed (i :: rest) st =
          markEffsDisposed rest (setEff st i { ef with disposed := true }) from by
        simp only [markEffsDisposed, h]]
      obtain ⟨a, b, c, d⟩ := ih (setEff st i { ef with disposed := true })
      refine ⟨a, ?_, c, d⟩
      rw [b]
      exact List.length_set ..

theorem sigDisposedB_set (st : RState) (i j : Nat) (x : SignalN)
    (hx : x.disposed = true) (h : sigDisposedB st j = true) :
    sigDisposedB (setSig st i x) j = true := by
  unfold sigDisposedB at *
  rw [show getSig (setSig st i x) j =
      (if i = j ∧ i < st.sigs.length then some x else getSig st j) from
    getElem_set_split st.sigs i j x]
  by_cases hc : i = j ∧ i < st.sigs.length
  · rw [if_pos hc]; exact hx
  · rw [if_neg hc]; exact h

theorem memoDisposedB_set (st : RState) (i j : Nat) (x : MemoN)
    (hx : x.disposed = true) (h : memoDisposedB st j = true) :
    memoDisposedB (setMemo st i x) j = true := by
  unfold memoDisposedB at *
  rw [show getMemo (setMemo st i x) j =
      (if i = j ∧ i < st.memos.length then some x else getMemo st j) from
    getElem_set_split st.memos i j x]
  by_cases hc : i = j ∧ i < st.memos.length
  · rw [if_pos hc]; exact hx
  · rw [if_neg hc]; exact h

theorem effDisposedB_set (st : RState) (i j : Nat) (x : EffectN)
    (hx : x.disposed = true) (h : effDisposedB st j = true) :
    effDisposedB (setEff st i x) j = true := by
  unfold effDisposedB at *
  rw [show getEff (setEff st i x) j =
      (if i = j ∧ i < st.effs.length then some x else getEff st j) from
    getElem_set_split st.effs i j x]
  by_cases hc : i = j ∧ i < st.effs.length
  · rw [if_pos hc]; exact hx
  · rw [if_neg hc]; exact h

theorem markSigsDisposed_mono (ids : List Nat) :
    ∀ (st : RState) (j : Nat), sigDisposedB st j = true →
      sigDisposedB (markSigsDisposed ids st) j = true := by
  induction ids with
  | nil => intro st j h; exact h
  | cons i rest ih =>
    intro st j h
    cases hg : getSig st i with
    | none =>
      rw [show markSigsDisposed (i :: rest) st = markSigsDisposed rest st from by
        simp only [markSigsDisposed, hg]]
      exact ih st j h
    | some sgn =>
      rw [show markSigsDisposed (i :: rest) st =
          markSigsDisposed rest (setSig st i { sgn with disposed := true }) from by
        simp only [markSigsDisposed, hg]]
      exact ih _ j (sigDisposedB_set st i j _ rfl h)

theorem markMemosDisposed_mono (ids : List Nat) :
    ∀ (st : RState) (j : Nat), memoDisposedB st j = true →
      memoDisposedB (markMemosDisposed ids st) j = true := by
  induction ids with
  | nil => intro st j h; exact h
  | cons i rest ih =>
    intro st j h
    cases hg : getMemo st i with
    | none =>
      rw [show markMemosDisposed (i :: rest) st = markMemosDisposed rest st from by
        simp only [markMemosDisposed, hg]]
      exact ih st j h
    | some m =>
      rw [show markMemosDisposed (i :: rest) st =
          markMemosDisposed rest (setMemo st i { m with disposed := true }) from by
        simp only [markMemosDisposed, hg]]
      exact ih _ j (memoDisposedB_set st i j _ rfl h)

theorem markEffsDisposed_mono (ids : List Nat) :
    ∀ (st : RState) (j : Nat), effDisposedB st j = true →
      effDisposedB (markEffsDisposed ids st) j = true := by
  induction ids with
  | nil => intro st j h; exact h
  | cons i rest ih =>
    intro st j h
    cases hg : getEff st i with
    | none =>
      rw [show markEffsDisposed (i :: rest) st = markEffsDisposed rest st from by
        simp only [markEffsDisposed, hg]]
      exact ih st j h
    | some ef =>
      rw [show markEffsDisposed (i :: rest) st =
          markEffsDisposed rest (setEff st i { ef with disposed := true }) from by
        simp only [markEffsDisposed, hg]]
      exact ih _ j (effDisposedB_set st i j _ rfl h)

theorem markSigsDisposed_sets (ids : List Nat) :
    ∀ (st : RState) (j : Nat), j ∈ ids → j < st.sigs.length →
      sigDisposedB (markSigsDisposed ids st) j = true := by
  induction ids with
  | nil => intro st j h; cases h
  | cons i rest ih =>
    intro st j hmem hlt
    cases hg : getSig st i with
    | none =>
      rw [show markSigsDisposed (i :: rest) st = markSigsDisposed rest st from by
        simp only [markSigsDisposed, hg]]
      rcases List.mem_cons.mp hmem with heq | hrest
      · subst heq
        exfalso
        have : st.sigs[j]? = none := hg
        rw [List.getElem?_eq_none_iff] at this
        omega
      · exact ih st j hrest hlt
    | some sgn =>
      rw [show markSigsDisposed (i :: rest) st =
          markSigsDisposed rest (setSig st i { sgn with disposed := true }) from by
        simp only [markSigsDisposed, hg]]
      rcases List.mem_cons.mp hmem with heq | hrest
      · subst heq
        apply markSigsDisposed_mono
        unfold sigDisposedB
        rw [show getSig (setSig st j { sgn with disposed := true }) j =
            (if j = j ∧ j < st.sigs.length then some { sgn with disposed := true }
             else getSig st j) from getElem_set_split st.sigs j j _]
        rw [if_pos ⟨rfl, hlt⟩]
      · exact ih _ j hrest (by
          rw [show (setSig st i { sgn with disposed := true }).sigs.length =
              st.sigs.length from List.length_set ..]
          exact hlt)

theorem markMemosDisposed_sets (ids : List Nat) :
    ∀ (st : RState) (j : Nat), j ∈ ids → j < st.memos.length →
      memoDisposedB (markMemosDisposed ids st) j = true := by
  induction ids with
  | nil => intro st j h; cases h
  | cons i rest ih =>
    intro st j hmem hlt
    cases hg : getMemo st i with
    | none =>
      rw [show markMemosDisposed (i :: rest) st = markMemosDisposed rest st from by
        simp only [markMemosDisposed, hg]]
      rcases List.mem_cons.mp hmem with heq | hrest
      · subst heq
        exfalso
        have : st.memos[j]? = none := hg
        rw [List.getElem?_eq_none_iff] at this
        omega
      · exact ih st j hrest hlt
    | some m =>
      rw [show markMemosDisposed (i :: rest) st =
          markMemosDisposed rest (setMemo st i { m with disposed := true }) from by
        simp only [markMemosDisposed, hg]]
      rcases List.mem_cons.mp hmem with heq | hrest
      · subst heq
        apply markMemosDisposed_mono
        unfold memoDisposedB
        rw [show getMemo (setMemo st j { m with disposed := true }) j =
            (if j = j ∧ j < st.memos.length then some { m with disposed := true }
             else getMemo st j) from getElem_set_split st.memos j j _]
        rw [if_pos ⟨rfl, hlt⟩]
      · exact ih _ j hrest (by
          rw [show (setMemo st i { m with disposed := true }).memos.length =
              st.memos.length from List.length_set ..]
          exact hlt)

theorem markEffsDisposed_sets (ids : List Nat) :
    ∀ (st : RState) (j : Nat), j ∈ ids → j < st.effs.length →
      effDisposedB (markEffsDisposed ids st) j = true := by
  induction ids with
  | nil => intro st j h; cases h
  | cons i rest ih =>
    intro st j hmem hlt
    cases hg : getEff st i with
    | none =>
      rw [show markEffsDisposed (i :: rest) st = markEffsDisposed rest st from by
        simp only [markEffsDisposed, hg]]
      rcases List.mem_cons.mp hmem with heq | hrest
      · subst heq
        exfalso
        have : st.effs[j]? = none := hg
        rw [List.getElem?_eq_none_iff] at this
        omega
      · exact ih st j hrest hlt
    | some ef =>
      rw [show markEffsDisposed (i :: rest) st =
          markEffsDisposed rest (setEff st i { ef with disposed := true }) from by
        simp only [markEffsDisposed, hg]]
      rcases List.mem_cons.mp hmem with heq | hrest
      · subst heq
        apply markEffsDisposed_mono
        unfold effDisposedB
        rw [show getEff (setEff st j { ef with disposed := true }) j =
            (if j = j ∧ j < st.effs.length then some { ef with disposed := true }
             else getEff st j) from getElem_set_split st.effs j j _]
        rw [if_pos ⟨rfl, hlt⟩]
      · exact ih _ j hrest (by
          rw [show (setEff st i { ef with disposed := true }).effs.length =
              st.effs.length from List.length_set ..]
          exact hlt)

theorem pruneDisposed_sigDisposedB (st : RState) (j : Nat) :
    sigDisposedB (pruneDisposed st) j = sigDisposedB st j := by
  unfold sigDisposedB pruneDisposed getSig
  simp only [List.getElem?_map]
  cases h : st.sigs[j]? <;> simp [h]

theorem pruneDisposed_memoDisposedB (st : RState) (j : Nat) :
    memoDisposedB (pruneDisposed st) j = memoDisposedB st j := by
  unfold memoDisposedB pruneDisposed getMemo
  simp only [List.getElem?_map]
  cases h : st.memos[j]? <;> simp [h]

theorem pruneDisposed_effDisposedB (st : RState) (j : Nat) :
    effDisposedB (pruneDisposed st) j = effDisposedB st j := by
  unfold effDisposedB pruneDisposed getEff
  simp only [List.getElem?_map]
  cases h : st.effs[j]? <;> simp [h]

theorem pruneDisposed_lens (st : RState) :
    (pruneDisposed st).cleanupLog = st.cleanupLog ∧
    (pruneDisposed st).sigs.length = st.sigs.length ∧
    (pruneDisposed st).memos.length = st.memos.length ∧
    (pruneDisposed st).effs.length = st.effs.length := by
  unfold pruneDisposed
  exact ⟨rfl, List.length_map .., List.length_map .., List.length_map ..⟩

theorem invalidate_props (os om oe : List Nat) (st : RState) :
    (pruneDisposed (markEffsDisposed oe (markMemosDisposed om
      (markSigsDisposed os st)))).cleanupLog = st.cleanupLog ∧
    (pruneDisposed (markEffsDisposed oe (markMemosDisposed om
      (markSigsDisposed os st)))).sigs.length = st.sigs.length ∧
    (pruneDisposed (markEffsDisposed oe (markMemosDisposed om
      (markSigsDisposed os st)))).memos.length = st.memos.length ∧
    (pruneDisposed (markEffsDisposed oe (markMemosDisposed om
      (markSigsDisposed os st)))).effs.length = st.effs.length := by
  obtain ⟨a1, a2, a3, a4⟩ := markSigsDisposed_props os st
  obtain ⟨b1, b2, b3, b4⟩ := markMemosDisposed_props om (markSigsDisposed os st)
  obtain ⟨c1, c2, c3, c4⟩ := markEffsDisposed_props oe
    (markMemosDisposed om (markSigsDisposed os st))
  obtain ⟨d1, d2, d3, d4⟩ := pruneDisposed_lens
    (markEffsDisposed oe (markMemosDisposed om (markSigsDisposed os st)))
  refine ⟨?_, ?_, ?_, ?_⟩
  · rw [d1, c1, b1, a1]
  · rw [d2, c3, b3]; exact a2
  · rw [d3, c4, b2, a3]
  · rw [d4, c2, b4, a4]

mutual

theorem disposeTree_props (t : ScopeTree) :
    ∀ (st : RState),
      (disposeTree t st).2.cleanupLog = st.cleanupLog ++ cleanupTrace t ∧
      (disposeTree t st).2.sigs.length = st.sigs.length ∧
      (disposeTree t st).2.memos.length = st.memos.length ∧
      (disposeTree t st).2.effs.length = st.effs.length := by
  cases t with
  | mk disposed cl os om oe ch =>
    intro st
    cases disposed with
    | true => simp [disposeTree, cleanupTrace]
    | false =>
      obtain ⟨f1, f2, f3, f4⟩ := disposeForest_props ch st
      obtain ⟨i1, i2, i3, i4⟩ := invalidate_props os om oe
        ⟨(disposeForest ch st).2.sigs, (disposeForest ch st).2.memos,
         (disposeForest ch st).2.effs, (disposeForest ch st).2.obsStack,
         (disposeForest ch st).2.pending, (disposeForest ch st).2.batchDepth,
         (disposeForest ch st).2.runLog,
         (disposeForest ch st).2.cleanupLog ++ cl.reverse⟩
      simp only [disposeTree, Bool.false_eq_true, if_false]
      refine ⟨?_, ?_, ?_, ?_⟩
      · rw [i1]
        show (disposeForest ch st).2.cleanupLog ++ cl.reverse = _
        rw [f1]
        rw [show cleanupTrace (.mk false cl os om oe ch) =
            forestCleanupTrace ch ++ cl.reverse from by simp [cleanupTrace]]
        rw [List.append_assoc]
      · rw [i2]; exact f2
      · rw [i3]; exact f3
      · rw [i4]; exact f4

theorem disposeForest_props (fo : ScopeForest) :
    ∀ (st : RState),
      (disposeForest fo st).2.cleanupLog = st.cleanupLog ++ forestCleanupTrace fo ∧
      (disposeForest fo st).2.sigs.length = st.sigs.length ∧
      (disposeForest fo st).2.memos.length = st.memos.length ∧
      (disposeForest fo st).2.effs.length = st.effs.length := by
  cases fo with
  | nil => intro st; simp [disposeForest, forestCleanupTrace]
  | cons t rest =>
    intro st
    obtain ⟨t1, t2, t3, t4⟩ := disposeTree_props t st
    obtain ⟨r1, r2, r3, r4⟩ := disposeForest_props rest (disposeTree t st).2
    simp only [disposeForest]
    refine ⟨?_, ?_, ?_, ?_⟩
    · rw [r1, t1]
      rw [show forestCleanupTrace (.cons t rest) =
          cleanupTrace t ++ forestCleanupTrace rest from by simp [forestCleanupTrace]]
      rw [List.append_assoc]
    · rw [r2]; exact t2
    · rw [r3]; exact t3
    · rw [r4]; exact t4

end

mutual

theorem cleanupTrace_perm (t : ScopeTree) :
    (cleanupTrace t).Perm (registeredCleanups t) := by
  cases t with
  | mk disposed cl os om oe ch =>
    cases disposed with
    | true => simp [cleanupTrace, registeredCleanups]
    | false =>
      simp only [cleanupTrace, registeredCleanups, Bool.false_eq_true, if_false]
      exact List.Perm.append (forestCleanupTrace_perm ch) (List.reverse_perm cl)

theorem forestCleanupTrace_perm (fo : ScopeForest) :
    (forestCleanupTrace fo).Perm (forestRegisteredCleanups fo) := by
  cases fo with
  | nil => simp [forestCleanupTrace, forestRegisteredCleanups]
  | cons t rest =>
    simp only [forestCleanupTrace, forestRegisteredCleanups]
    exact List.Perm.append (cleanupTrace_perm t) (forestCleanupTrace_perm rest)

end

theorem sigDisposedB_eq_of_sigs (st st' : RState) (h : st'.sigs = st.sigs)
    (j : Nat) : sigDisposedB st' j = sigDisposedB st j := by
  unfold sigDisposedB getSig
  rw [h]

theorem memoDisposedB_eq_of_memos (st st' : RState) (h : st'.memos = st.memos)
    (j : Nat) : memoDisposedB st' j = memoDisposedB st j := by
  unfold memoDisposedB getMemo
  rw [h]

theorem effDisposedB_eq_of_effs (st st' : RState) (h : st'.effs = st.effs)
    (j : Nat) : effDisposedB st' j = effDisposedB st j := by
  unfold effDisposedB getEff
  rw [h]

theorem sig_invalidate_mono (os om oe : List Nat) (st : RState) (j : Nat)
    (h : sigDisposedB st j = true) :
    sigDisposedB (pruneDisposed (markEffsDisposed oe (markMemosDisposed om
      (markSigsDisposed os st)))) j = true := by
  rw [pruneDisposed_sigDisposedB]
  rw [sigDisposedB_eq_of_sigs _ _ (markEffsDisposed_props oe _).2.2.1 j]
  rw [sigDisposedB_eq_of_sigs _ _ (markMemosDisposed_props om _).2.2.1 j]
  exact markSigsDisposed_mono os st j h

theorem sig_invalidate_sets (os om oe : List Nat) (st : RState) (j : Nat)
    (hmem : j ∈ os) (hlt : j < st.sigs.length) :
    sigDisposedB (pruneDisposed (markEffsDisposed oe (markMemosDisposed om
      (markSigsDisposed os st)))) j = true := by
  rw [pruneDisposed_sigDisposedB]
  rw [sigDisposedB_eq_of_sigs _ _ (markEffsDisposed_props oe _).2.2.1 j]
  rw [sigDisposedB_eq_of_sigs _ _ (markMemosDisposed_props om _).2.2.1 j]
  exact markSigsDisposed_sets os st j hmem hlt

theorem memo_invalidate_mono (os om oe : List Nat) (st : RState) (j : Nat)
    (h : memoDisposedB st j = true) :
    memoDisposedB (pruneDisposed (markEffsDisposed oe (markMemosDisposed om
      (markSigsDisposed os st)))) j = true := by
  rw [pruneDisposed_memoDisposedB]
  rw [memoDisposedB_eq_of_memos _ _ (markEffsDisposed_props oe _).2.2.2 j]
  apply markMemosDisposed_mono
  rw [memoDisposedB_eq_of_memos _ _ (markSigsDisposed_props os _).2.2.1 j]
  exact h

theorem memo_invalidate_sets (os om oe : List Nat) (st : RState) (j : Nat)
    (hmem : j ∈ om) (hlt : j < st.memos.length) :
    memoDisposedB (pruneDisposed (markEffsDisposed oe (markMemosDisposed om
      (markSigsDisposed os st)))) j = true := by
  rw [pruneDisposed_memoDisposedB]
  rw [memoDisposedB_eq_of_memos _ _ (markEffsDisposed_props oe _).2.2.2 j]
  apply markMemosDisposed_sets
  · exact hmem
  · rw [show (markSigsDisposed os st).memos = st.memos from
      (markSigsDisposed_props os st).2.2.1]
    exact hlt

theorem eff_invalidate_mono (os om oe : List Nat) (st : RState) (j : Nat)
    (h : effDisposedB st j = true) :
    effDisposedB (pruneDisposed (markEffsDisposed oe (markMemosDisposed om
      (markSigsDisposed os st)))) j = true := by
  rw [pruneDisposed_effDisposedB]
  apply markEffsDisposed_mono
  rw [effDisposedB_eq_of_effs _ _ (markMemosDisposed_props om _).2.2.2 j]
  rw [effDisposedB_eq_of_effs _ _ (markSigsDisposed_props os _).2.2.2 j]
  exact h

theorem eff_invalidate_sets (os om oe : List Nat) (st : RState) (j : Nat)
    (hmem : j ∈ oe) (hlt : j < st.effs.length) :
    effDisposedB (pruneDisposed (markEffsDisposed oe (markMemosDisposed om
      (markSigsDisposed os st)))) j = true := by
  rw [pruneDisposed_effDisposedB]
  apply markEffsDisposed_sets
  · exact hmem
  · rw [show (markMemosDisposed om (markSigsDisposed os st)).effs =
        (markSigsDisposed os st).effs from (markMemosDisposed_props om _).2.2.2]
    rw [show (markSigsDisposed os st).effs = st.effs from
      (markSigsDisposed_props os st).2.2.2]
    exact hlt

mutual

theorem disposeTree_flags (t : ScopeTree) :
    ∀ (st : RState) (j : Nat),
      (sigDisposedB st j = true → sigDisposedB (disposeTree t st).2 j = true) ∧
      (memoDisposedB st j = true → memoDisposedB (disposeTree t st).2 j = true) ∧
      (effDisposedB st j = true → effDisposedB (disposeTree t st).2 j = true) ∧
      (j ∈ ownedSigsRec t → j < st.sigs.length →
        sigDisposedB (disposeTree t st).2 j = true) ∧
      (j ∈ ownedMemosRec t → j < st.memos.length →
        memoDisposedB (disposeTree t st).2 j = true) ∧
      (j ∈ ownedEffsRec t → j < st.effs.length →
        effDisposedB (disposeTree t st).2 j = true) := by
  cases t with
  | mk disposed cl os om oe ch =>
    intro st j
    cases disposed with
    | true =>
      simp [disposeTree, ownedSigsRec, ownedMemosRec, ownedEffsRec]
    | false =>
      simp only [disposeTree, ownedSigsRec, ownedMemosRec, ownedEffsRec,
        Bool.false_eq_true, if_false]
      refine ⟨?_, ?_, ?_, ?_, ?_, ?_⟩
      · intro h
        exact sig_invalidate_mono os om oe _ j ((disposeForest_flags ch st j).1 h)
      · intro h
        exact memo_invalidate_mono os om oe _ j ((disposeForest_flags ch st j).2.1 h)
      · intro h
        exact eff_invalidate_mono os om oe _ j ((disposeForest_flags ch st j).2.2.1 h)
      · intro hm hlt
        rcases List.mem_append.mp hm with hm1 | hm2
        · exact sig_invalidate_mono os om oe _ j
            ((disposeForest_flags ch st j).2.2.2.1 hm1 hlt)
        · refine sig_invalidate_sets os om oe _ j hm2 ?_
          show j < (disposeForest ch st).2.sigs.length
          rw [(disposeForest_props ch st).2.1]
          exact hlt
      · intro hm hlt
        rcases List.mem_append.mp hm with hm1 | hm2
        · exact memo_invalidate_mono os om oe _ j
            ((disposeForest_flags ch st j).2.2.2.2.1 hm1 hlt)
        · refine memo_invalidate_sets os om oe _ j hm2 ?_
          show j < (disposeForest ch st).2.memos.length
          rw [(disposeForest_props ch st).2.2.1]
          exact hlt
      · intro hm hlt
        rcases List.mem_append.mp hm with hm1 | hm2
        · exact eff_invalidate_mono os om oe _ j
            ((disposeForest_flags ch st j).2.2.2.2.2 hm1 hlt)
        · refine eff_invalidate_sets os om oe _ j hm2 ?_
          show j < (disposeForest ch st).2.effs.length
          rw [(disposeForest_props ch st).2.2.2]
          exact hlt

theorem disposeForest_flags (fo : ScopeForest) :
    ∀ (st : RState) (j : Nat),
      (sigDisposedB st j = true → sigDisposedB (disposeForest fo st).2 j = true) ∧
      (memoDisposedB st j = true → memoDisposedB (disposeForest fo st).2 j = true) ∧
      (effDisposedB st j = true → effDisposedB (disposeForest fo st).2 j = true) ∧
      (j ∈ forestOwnedSigs fo → j < st.sigs.length →
        sigDisposedB (disposeForest fo st).2 j = true) ∧
      (j ∈ forestOwnedMemos fo → j < st.memos.length →
        memoDisposedB (disposeForest fo st).2 j = true) ∧
      (j ∈ forestOwnedEffs fo → j < st.effs.length →
        effDisposedB (disposeForest fo st).2 j = true) := by
  cases fo with
  | nil =>
    intro st j
    simp [disposeForest, forestOwnedSigs, forestOwnedMemos, forestOwnedEffs]
  | cons t rest =>
    intro st j
    simp only [disposeForest, forestOwnedSigs, forestOwnedMemos, forestOwnedEffs]
    refine ⟨?_, ?_, ?_, ?_, ?_, ?_⟩
    · intro h
      exact (disposeForest_flags rest (disposeTree t st).2 j).1
        ((disposeTree_flags t st j).1 h)
    · intro h
      exact (disposeForest_flags rest (disposeTree t st).2 j).2.1
        ((disposeTree_flags t st j).2.1 h)
    · intro h
      exact (disposeForest_flags rest (disposeTree t st).2 j).2.2.1
        ((disposeTree_flags t st j).2.2.1 h)
    · intro hm hlt
      rcases List.mem_append.mp hm with hm1 | hm2
      · exact (disposeForest_flags rest (disposeTree t st).2 j).1
          ((disposeTree_flags t st j).2.2.2.1 hm1 hlt)
      · refine (disposeForest_flags rest (disposeTree t st).2 j).2.2.2.1 hm2 ?_
        rw [(disposeTree_props t st).2.1]
        exact hlt
    · intro hm hlt
      rcases List.mem_append.mp hm with hm1 | hm2
      · exact (disposeForest_flags rest (disposeTree t st).2 j).2.1
          ((disposeTree_flags t st j).2.2.2.2.1 hm1 hlt)
      · refine (disposeForest_flags rest (disposeTree t st).2 j).2.2.2.2.1 hm2 ?_
        rw [(disposeTree_props t st).2.2.1]
        exact hlt
    · intro hm hlt
      rcases List.mem_append.mp hm with hm1 | hm2
      · exact (disposeForest_flags rest (disposeTree t st).2 j).2.2.1
          ((disposeTree_flags t st j).2.2.2.2.2 hm1 hlt)
      · refine (disposeForest_flags rest (disposeTree t st).2 j).2.2.2.2.2 hm2 ?_
        rw [(disposeTree_props t st).2.2.2]
        exact hlt

end

theorem disposeTree_idem (t : ScopeTree) (st : RState) :
    disposeTree (disposeTree t st).1 (disposeTree t st).2 = disposeTree t st := by
  cases t with
  | mk disposed cl os om oe ch =>
    cases disposed with
    | true => simp [disposeTree]
    | false =>
      rw [show (disposeTree (.mk false cl os om oe ch) st).1 =
          .mk true cl os om oe (disposeForest ch st).1 from by
        simp [disposeTree]]
      simp [disposeTree]

theorem writeSig_disposed (fuel i : Nat) (v : Int) (st : RState)
    (h : sigDisposedB st i = true) : writeSig fuel i v st = st := by
  unfold writeSig
  cases hg : getSig st i with
  | none => rfl
  | some s =>
    have h2 : s.disposed = true := by
      unfold sigDisposedB at h
      rw [hg] at h
      exact h
    simp only [hg]
    simp [h2]

/-- C6: disposing a scope runs, during the disposal call itself, exactly
the cleanup callbacks registered under it and its still-active
descendants (children depth-first, each scope's own callbacks in reverse
registration order - a permutation of the registered list, so each runs
exactly once), marks every transitively owned signal, memo and effect
disposed, renders the owned signals inert (a subsequent write to one is
a complete no-op, so no effect reruns can be observed), and disposing
the already-disposed scope again is a no-op. -/
theorem c6_dispose_scope (t : ScopeTree) (st : RState)
    (i m e fuel2 : Nat) (v : Int) (cl2 os2 om2 oe2 : List Nat)
    (hi : i ∈ ownedSigsRec t) (hilen : i < st.sigs.length)
    (hm : m ∈ ownedMemosRec t) (hmlen : m < st.memos.length)
    (he : e ∈ ownedEffsRec t) (helen : e < st.effs.length) :
    (disposeTree t st).2.cleanupLog = st.cleanupLog ++ cleanupTrace t ∧
    (cleanupTrace t).Perm (registeredCleanups t) ∧
    cleanupTrace (.mk false cl2 os2 om2 oe2 .nil) = cl2.reverse ∧
    sigDisposedB (disposeTree t st).2 i = true ∧
    memoDisposedB (disposeTree t st).2 m = true ∧
    effDisposedB (disposeTree t st).2 e = true ∧
    writeSig fuel2 i v (disposeTree t st).2 = (disposeTree t st).2 ∧
    disposeTree (disposeTree t st).1 (disposeTree t st).2 = disposeTree t st := by
  have hsig := (disposeTree_flags t st i).2.2.2.1 hi hilen
  exact ⟨(disposeTree_props t st).1, cleanupTrace_perm t,
    by simp [cleanupTrace, forestCleanupTrace], hsig,
    (disposeTree_flags t st m).2.2.2.2.1 hm hmlen,
    (disposeTree_flags t st e).2.2.2.2.2 he helen,
    writeSig_disposed fuel2 i v _ hsig,
    disposeTree_idem t st⟩

/-- Witness for C6: disposing the concrete scope `c6Tree` (root owning
signal 0, memo 0 and effect 0 with cleanups [1, 2]; one child owning
signal 1 with cleanup [3]) in the runtime `c6Init`. -/
theorem c6_dispose_scope_witness :
    (disposeTree c6Tree c6Init).2.cleanupLog =
      c6Init.cleanupLog ++ cleanupTrace c6Tree ∧
    (cleanupTrace c6Tree).Perm (registeredCleanups c6Tree) ∧
    cleanupTrace (.mk false [4, 5] [] [] [] .nil) = List.reverse [4, 5] ∧
    sigDisposedB (disposeTree c6Tree c6Init).2 0 = true ∧
    memoDisposedB (disposeTree c6Tree c6Init).2 0 = true ∧
    effDisposedB (disposeTree c6Tree c6Init).2 0 = true ∧
    writeSig 100 0 9 (disposeTree c6Tree c6Init).2 = (disposeTree c6Tree c6Init).2 ∧
    disposeTree (disposeTree c6Tree c6Init).1 (disposeTree c6Tree c6Init).2 =
      disposeTree c6Tree c6Init :=
  c6_dispose_scope c6Tree c6Init 0 0 0 100 9 [4, 5] [] [] []
    (by simp [c6Tree, ownedSigsRec, forestOwnedSigs])
    (by decide)
    (by simp [c6Tree, ownedMemosRec, forestOwnedMemos])
    (by decide)
    (by simp [c6Tree, ownedEffsRec, forestOwnedEffs])
    (by decide)

end Reactive

end Spec2Proof
